import Mathlib

/-!
Verification development for the GitSafe pre-commit secret scanner.

The Python sources are shallowly embedded as executable Lean definitions:

* `gitsafe/git/diff_parser.py`   → `GitSafe.parseDiff` and its helpers
* `gitsafe/scanner/entropy.py`   → `GitSafe.extract_candidates`, `GitSafe.find_high_entropy`
* `gitsafe/scanner/suppression.py` → `GitSafe.parse_inline_suppression`,
  `GitSafe.registerGo`, `GitSafe.checkerIsSuppressed`, `GitSafe.GitSafeIgnore`
* `gitsafe/findings/aggregator.py` → `GitSafe.deduplicate`
* `gitsafe/config/schema.py`     → `GitSafe.SEVERITY_ORDER_get`, `GitSafe.severity_at_or_above`
* `gitsafe/scanner/engine.py`    → `GitSafe.stepEvent`, `GitSafe.runEvents`, `GitSafe.scanE`

External library calls (Python `re` patterns supplied by rules, `fnmatch`
globs, `math.log2`-based Shannon entropy over IEEE floats, file input and
the wall clock) are modelled as parameters: a compiled user regex becomes an
abstract search function, a glob becomes an abstract path predicate, the
entropy score becomes an abstract rational-valued function.  The fixed
regular expressions that appear literally in the repository
(`_DIFF_HEADER_RE`, `_HUNK_HEADER_RE`, …) are translated into concrete
character-level Lean functions.  Python `\d` and `\s` are modelled by their
ASCII subsets.  Machine integers do not occur (Python integers are
unbounded); line numbers are embedded as `Int`.
-/

namespace GitSafe

/-! ## Character and string utilities -/

/-- ASCII decimal digit, modelling `\d` of the source regexes. -/
def isDigitC (c : Char) : Bool :=
  decide ('0' ≤ c) && decide (c ≤ '9')

/-- Lower-case hex digit, modelling the class `[0-9a-f]`. -/
def isHexLower (c : Char) : Bool :=
  isDigitC c || (decide ('a' ≤ c) && decide (c ≤ 'f'))

/-- ASCII whitespace, modelling `\s` and Python `str.strip()`. -/
def isPyWs (c : Char) : Bool :=
  c = ' ' || c = '\t' || c = '\n' || c = '\r' ||
  c = Char.ofNat 11 || c = Char.ofNat 12

/-- ASCII letter or digit (for the class `[A-Za-z0-9_,\s]`). -/
def isAsciiAlphaNum (c : Char) : Bool :=
  isDigitC c || (decide ('a' ≤ c) && decide (c ≤ 'z')) ||
  (decide ('A' ≤ c) && decide (c ≤ 'Z'))

/-- Does `hay` contain `needle` as a contiguous run? -/
def containsRun (needle : List Char) : List Char → Bool
  | [] => needle.isEmpty
  | c :: cs => needle.isPrefixOf (c :: cs) || containsRun needle cs

/-- Split a character list at the LAST occurrence of `sep`, modelling the
greedy backtracking of `(.*) sep (.*)` in a Python regex. -/
def splitLastOn (sep : List Char) : List Char → Option (List Char × List Char)
  | [] => if sep.isEmpty then some ([], []) else none
  | c :: cs =>
    match splitLastOn sep cs with
    | some (b, a) => some (c :: b, a)
    | none =>
      if sep.isPrefixOf (c :: cs) then some ([], (c :: cs).drop sep.length)
      else none

/-- Numeric value of a digit run, as Python `int()` on the matched group. -/
def digitsToInt (ds : List Char) : Int :=
  Int.ofNat (ds.foldl (fun a c => a * 10 + (c.toNat - '0'.toNat)) 0)

/-- `str.splitlines`: split on line terminators, no trailing empty line.
The terminators are modelled by the ASCII subset `\n`, `\r`, `\r\n`, `\v`,
`\f` of the Python set. -/
def isLineBreak (c : Char) : Bool :=
  c = '\n' || c = '\r' || c = Char.ofNat 11 || c = Char.ofNat 12

/-- Worker for `pySplitLines`; `acc` is the current (reversed) line. -/
def splitLinesGo : List Char → List Char → List String
  | [], acc => if acc.isEmpty then [] else [String.mk acc.reverse]
  | '\r' :: '\n' :: rest, acc => String.mk acc.reverse :: splitLinesGo rest []
  | c :: rest, acc =>
    if isLineBreak c then String.mk acc.reverse :: splitLinesGo rest []
    else splitLinesGo rest (c :: acc)

/-- Python `str.splitlines` (ASCII terminators). -/
def pySplitLines (s : String) : List String :=
  splitLinesGo s.data []

/-- `p.data.isPrefixOf s.data` as a string-level helper. -/
def strStarts (s p : String) : Bool :=
  p.data.isPrefixOf s.data

/-- Drop the first `n` characters of a string (Python `s[n:]`). -/
def strDrop (s : String) (n : Nat) : String :=
  String.mk (s.data.drop n)

/-- Python `str.strip()` with the ASCII whitespace set. -/
def pyStrip (s : String) : String :=
  String.mk (((s.data.dropWhile isPyWs).reverse.dropWhile isPyWs).reverse)

/-- Python `str.strip(chars)` for an explicit character set. -/
def pyStripChars (set : List Char) (s : String) : String :=
  String.mk (((s.data.dropWhile (set.contains ·)).reverse.dropWhile
    (set.contains ·)).reverse)

/-- Split a character list on commas, keeping empty chunks
(Python `str.split(",")`). -/
def splitCommas : List Char → List (List Char)
  | [] => [[]]
  | ',' :: rest =>
    [] :: splitCommas rest
  | c :: rest =>
    match splitCommas rest with
    | [] => [[c]]
    | chunk :: more => (c :: chunk) :: more

/-! ## Diff models (`gitsafe/git/models.py`) -/

/-- `LineType` of `git/models.py`. -/
inductive LineType where
  | added
  | removed
  | context
deriving DecidableEq

/-- `FileStatus` of `git/models.py`. -/
inductive FileStatus where
  | fsAdded
  | modified
  | deleted
  | renamed
  | modeChanged
deriving DecidableEq

/-- The three event kinds yielded by `DiffParser.parse`:
`DiffFile`, `DiffLine` and `FileSkipped` of `git/models.py`. -/
inductive DiffItem where
  | file (path : String) (oldPath : Option String) (status : FileStatus)
  | line (file : String) (lineNo : Int) (content : String) (lineType : LineType)
  | skipped (path : String) (reason : String)
deriving DecidableEq

/-! ## Fixed regexes of `gitsafe/git/diff_parser.py`, as character functions -/

/-- `_strip_bom`: `line.lstrip("﻿")` removes every leading U+FEFF. -/
def strip_bom (s : String) : String :=
  String.mk (s.data.dropWhile (· = '﻿'))

/-- `_DIFF_HEADER_RE`: `^diff --git a/(.*) b/(.*)$`.  The greedy first
group takes everything up to the last occurrence of `" b/"`. -/
def diffHeader? (s : String) : Option (String × String) :=
  if ("diff --git a/".data).isPrefixOf s.data then
    match splitLastOn " b/".data (s.data.drop 13) with
    | some (old, new) => some (String.mk old, String.mk new)
    | none => none
  else none

/-- Take a maximal run of characters satisfying `p`, returning it and the
rest. -/
def takeRun (p : Char → Bool) (cs : List Char) : List Char × List Char :=
  (cs.takeWhile p, cs.dropWhile p)

/-- After a digit run, consume an optional `,(\d+)` group; returns the rest
on success (`none` models a failed overall match). -/
def optCommaCount (cs : List Char) : Option (List Char) :=
  match cs with
  | ',' :: cs₂ =>
    let (d, r) := takeRun isDigitC cs₂
    if d.isEmpty then none else some r
  | _ => some cs

/-- `_HUNK_HEADER_RE`: `^@@ -(\d+)(?:,(\d+))? \+(\d+)(?:,(\d+))? @@`.
Only the third group (`new_start`) is retained by the parser. -/
def hunkHeader? (s : String) : Option Int :=
  if ("@@ -".data).isPrefixOf s.data then
    let cs := s.data.drop 4
    let (d1, r1) := takeRun isDigitC cs
    if d1.isEmpty then none else
    match optCommaCount r1 with
    | none => none
    | some r2 =>
      match r2 with
      | ' ' :: '+' :: r3 =>
        let (d3, r4) := takeRun isDigitC r3
        if d3.isEmpty then none else
        match optCommaCount r4 with
        | none => none
        | some r5 =>
          match r5 with
          | ' ' :: '@' :: '@' :: _ => some (digitsToInt d3)
          | _ => none
      | _ => none
  else none

/-- `_BINARY_RE`: `^Binary files .* and .* differ$`. -/
def isBinaryLine (s : String) : Bool :=
  let cs := s.data
  ("Binary files ".data).isPrefixOf cs &&
  (" differ".data).isSuffixOf cs &&
  decide (13 + 7 ≤ cs.length) &&
  containsRun " and ".data ((cs.drop 13).take (cs.length - 13 - 7))

/-- `_RENAME_FROM_RE`: `^rename from (.+)$`. -/
def renameFrom? (s : String) : Option String :=
  if ("rename from ".data).isPrefixOf s.data && decide (12 < s.data.length) then
    some (String.mk (s.data.drop 12))
  else none

/-- `_RENAME_TO_RE`: `^rename to (.+)$`. -/
def renameTo? (s : String) : Option String :=
  if ("rename to ".data).isPrefixOf s.data && decide (10 < s.data.length) then
    some (String.mk (s.data.drop 10))
  else none

/-- `_SUBPROJECT_RE`: `^[+-]?Subproject commit [0-9a-f]+$`.  The optional
sign is consumed when present (`S` is not a sign, so this is exactly the
regex's behaviour). -/
def isSubproject (s : String) : Bool :=
  let cs :=
    if strStarts s "+" || strStarts s "-" then s.data.drop 1 else s.data
  if ("Subproject commit ".data).isPrefixOf cs then
    let hx := cs.drop 18
    !hx.isEmpty && hx.all isHexLower
  else false

/-- `_NO_NEWLINE_RE`: `^\\ No newline at end of file$`. -/
def isNoNewline (s : String) : Bool :=
  s = "\\ No newline at end of file"

/-- `_FILE_HEADER_OLD`: `^--- (?:a/|/dev/null)`. -/
def isFileHeaderOld (s : String) : Bool :=
  strStarts s "--- a/" || strStarts s "--- /dev/null"

/-- `_FILE_HEADER_NEW`: `^\+\+\+ (?:b/|/dev/null)`. -/
def isFileHeaderNew (s : String) : Bool :=
  strStarts s "+++ b/" || strStarts s "+++ /dev/null"

/-- Helper: prefix literal, then ≥1 digits, then exactly `suf`, then end. -/
def litDigitsLit (pre suf : List Char) (s : String) : Bool :=
  if pre.isPrefixOf s.data then
    let (d, r) := takeRun isDigitC (s.data.drop pre.length)
    !d.isEmpty && decide (r = suf)
  else false

/-- `_SIMILARITY_RE`: `^similarity index \d+%$`. -/
def isSimilarity (s : String) : Bool :=
  litDigitsLit "similarity index ".data "%".data s

/-- `_OLD_MODE_RE`: `^old mode \d+$`. -/
def isOldMode (s : String) : Bool :=
  litDigitsLit "old mode ".data [] s

/-- `_NEW_MODE_RE`: `^new mode \d+$`. -/
def isNewMode (s : String) : Bool :=
  litDigitsLit "new mode ".data [] s

/-- `_DELETED_FILE_RE`: `^deleted file mode \d+$`. -/
def isDeletedFile (s : String) : Bool :=
  litDigitsLit "deleted file mode ".data [] s

/-- `_NEW_FILE_RE`: `^new file mode \d+$`. -/
def isNewFileMode (s : String) : Bool :=
  litDigitsLit "new file mode ".data [] s

/-- `_INDEX_RE`: `^index [0-9a-f]+\.\.[0-9a-f]+` (prefix match; since `.`
is not a hex digit the greedy run is forced to stop exactly at `..`). -/
def isIndexLine (s : String) : Bool :=
  if ("index ".data).isPrefixOf s.data then
    let (h1, r1) := takeRun isHexLower (s.data.drop 6)
    if h1.isEmpty then false else
    match r1 with
    | '.' :: '.' :: r2 => !(r2.takeWhile isHexLower).isEmpty
    | _ => false
  else false

/-! ## The diff parser (`DiffParser.parse` of `gitsafe/git/diff_parser.py`)

The Python generator is an index-driven `while` loop that advances by at
least one input line per iteration; it is embedded as a fuel-indexed
recursion over the remaining lines, run with fuel `lines.length + 1`
(theorem `C5` below proves that any fuel beyond that bound gives the same
result, i.e. the loop terminates within the bound). -/

/-- The flag block reset at each `diff --git` header and filled by the
sub-header sweep (lines 86–132 of `diff_parser.py`). -/
structure SubFlags where
  oldFile : String
  curFile : String
  isRename : Bool
  isModeOnly : Bool
  isDeleted : Bool
  isBinary : Bool
deriving DecidableEq

/-- The inner sub-header `while` loop (lines 96–132): consume `index`,
`similarity`, mode, `new/deleted file`, `rename` and `Binary files` lines
until the first non-sub-header line. -/
def subHeaders : List String → SubFlags → SubFlags × List String
  | [], f => (f, [])
  | l :: rest, f =>
    if isIndexLine l then subHeaders rest f
    else if isSimilarity l then subHeaders rest f
    else if isOldMode l then subHeaders rest { f with isModeOnly := true }
    else if isNewMode l then subHeaders rest f
    else if isDeletedFile l then subHeaders rest { f with isDeleted := true }
    else if isNewFileMode l then subHeaders rest f
    else
      match renameFrom? l with
      | some p => subHeaders rest { f with oldFile := p, isRename := true }
      | none =>
        match renameTo? l with
        | some p => subHeaders rest { f with curFile := p }
        | none =>
          if isBinaryLine l then subHeaders rest { f with isBinary := true }
          else (f, l :: rest)

/-- `_has_hunks_ahead` (lines 217–226): look ahead for a hunk header
before the next `diff --git` line. -/
def hasHunksAhead : List String → Bool
  | [] => false
  | l :: rest =>
    if (diffHeader? l).isSome then false
    else if (hunkHeader? l).isSome then true
    else hasHunksAhead rest

/-- The loop state that survives across iterations of the main `while`
loop: `current_file`, `line_no` and the `hunk_buffer`. -/
structure PSt where
  currentFile : Option String
  lineNo : Int
  buffer : List DiffItem
deriving DecidableEq

/-- Status resolution of lines 141–147: `deleted` wins over `renamed`,
default `modified`. -/
def resolveStatus (f : SubFlags) : FileStatus :=
  if f.isDeleted then .deleted
  else if f.isRename then .renamed
  else .modified

/-- One `DiffFile`/`FileSkipped` cluster (lines 134–154), already past the
sub-header sweep.  Returns the items emitted for the header and the state
for the continuation; the flushed buffer is prepended by the caller. -/
def headerEmit (f : SubFlags) (rest : List String) (st : PSt) :
    List DiffItem × PSt :=
  if f.isBinary then
    ([.skipped f.curFile "binary"],
     { currentFile := some f.curFile, lineNo := st.lineNo, buffer := [] })
  else if f.isModeOnly && !hasHunksAhead rest then
    ([.skipped f.curFile "mode_only"],
     { currentFile := some f.curFile, lineNo := st.lineNo, buffer := [] })
  else
    ([.file f.curFile (if f.isRename then some f.oldFile else none)
        (resolveStatus f)],
     { currentFile := some f.curFile, lineNo := st.lineNo, buffer := [] })

/-- The main parse loop (lines 62–215), fuel-indexed.  Exhausted fuel (or
exhausted input) flushes the hunk buffer, as the epilogue at line 215
does. -/
def parseAux : Nat → List String → PSt → List DiffItem
  | 0, _, st => st.buffer
  | _ + 1, [], st => st.buffer
  | fuel + 1, l :: rest, st =>
    match diffHeader? l with
    | some (old, cur) =>
      let fr := subHeaders rest
        ⟨old, cur, false, false, false, false⟩
      let he := headerEmit fr.1 fr.2 st
      st.buffer ++ he.1 ++ parseAux fuel fr.2 he.2
    | none =>
      if isFileHeaderOld l || isFileHeaderNew l then parseAux fuel rest st
      else
        match hunkHeader? l with
        | some ns =>
          st.buffer ++ parseAux fuel rest
            { st with lineNo := ns, buffer := [] }
        | none =>
          if isSubproject l then parseAux fuel rest st
          else if isNoNewline l then parseAux fuel rest st
          else
            match st.currentFile with
            | none => parseAux fuel rest st
            | some file =>
              if strStarts l "+" then
                parseAux fuel rest
                  { st with
                    buffer := st.buffer ++
                      [.line file st.lineNo (strip_bom (strDrop l 1)) .added],
                    lineNo := st.lineNo + 1 }
              else if strStarts l "-" then parseAux fuel rest st
              else if strStarts l " " then
                parseAux fuel rest { st with lineNo := st.lineNo + 1 }
              else parseAux fuel rest st

/-- Initial parser state (lines 64–74). -/
def initPSt : PSt := ⟨none, 0, []⟩

/-- `DiffParser(diff_text).parse()`, materialised into a list as the
engine does at line 77 of `engine.py`. -/
def parseDiff (diffText : String) : List DiffItem :=
  let lines := pySplitLines diffText
  parseAux (lines.length + 1) lines initPSt

/-! ## Entropy analyser (`gitsafe/scanner/entropy.py`)

`shannon_entropy` computes `-Σ p·log₂ p` over IEEE doubles; the numeric
function is not translatable (floating point), so the engine is
parameterised by an abstract score `H : String → ℚ`.  The tokenisation
(`_TOKEN_RE` and the quote stripping of `extract_candidates`) is repository
code and is translated exactly. -/

/-- A character of the separator class of `_TOKEN_RE`:
whitespace or one of ``= : ; , ' " < > ( ) { } [ ]``. -/
def isTokenSep (c : Char) : Bool :=
  isPyWs c || c = '=' || c = ':' || c = ';' || c = ',' || c = Char.ofNat 39 ||
  c = '"' || c = '<' || c = '>' || c = '(' || c = ')' ||
  c = Char.ofNat 123 || c = Char.ofNat 125 || c = '[' || c = ']'

/-- `_TOKEN_RE.findall`: the maximal runs of non-separator characters.
`acc` holds the current run, reversed. -/
def runsGo : List Char → List Char → List (List Char)
  | [], acc => if acc.isEmpty then [] else [acc.reverse]
  | c :: cs, acc =>
    if isTokenSep c then
      if acc.isEmpty then runsGo cs [] else acc.reverse :: runsGo cs []
    else runsGo cs (c :: acc)

/-- `extract_candidates`: tokenise, strip surrounding quotes, keep tokens
of length ≥ `min_length`. -/
def extract_candidates (line : String) (min_length : Nat) : List String :=
  ((runsGo line.data []).map
    (fun t => pyStripChars [Char.ofNat 39, '"'] (String.mk t))).filter
    (fun tok => decide (min_length ≤ tok.data.length))

/-- `find_high_entropy` with the Shannon score abstracted as `H`. -/
def find_high_entropy (H : String → ℚ) (line : String) (min_entropy : ℚ)
    (min_length : Nat) : List (String × ℚ) :=
  (extract_candidates line min_length).filterMap
    (fun c => if min_entropy ≤ H c then some (c, H c) else none)

/-! ## Suppression index (`gitsafe/scanner/suppression.py`) -/

/-- `Suppression` dataclass. -/
structure Suppression where
  rule_id : String
  file : String
  line_no : Int
  reason : String
  source : String
deriving DecidableEq

/-- A character of the class `[A-Za-z0-9_,\s]` inside the bracket group of
`_SUPPRESS_RE`. -/
def isIdClassChar (c : Char) : Bool :=
  isAsciiAlphaNum c || c = '_' || c = ',' || isPyWs c

/-- `$` of a Python regex: end of string, or just before one trailing
newline. -/
def matchesEnd (cs : List Char) : Bool :=
  cs.isEmpty || cs = ['\n']

/-- The bracket-free tail of `_SUPPRESS_RE`: `\s*$`. -/
def suppressNoBracket (cs : List Char) : Option (Option (List Char)) :=
  if matchesEnd (cs.dropWhile isPyWs) then some none else none

/-- Try `_SUPPRESS_RE` anchored at this position (which must be `#`).
Returns `some ids?` on a match; `ids?` is the optional bracket group. -/
def suppressAt : List Char → Option (Option (List Char))
  | '#' :: rest =>
    let r1 := rest.dropWhile isPyWs
    let kwLen : Option Nat :=
      if ("gitsafe-ignore".data).isPrefixOf r1 then some 14
      else if ("nosec".data).isPrefixOf r1 then some 5
      else none
    match kwLen with
    | none => none
    | some k =>
      let r2 := r1.drop k
      match r2 with
      | '[' :: r3 =>
        let ids := r3.takeWhile isIdClassChar
        match r3.drop ids.length with
        | ']' :: r5 =>
          if !ids.isEmpty && matchesEnd (r5.dropWhile isPyWs) then
            some (some ids)
          else suppressNoBracket r2
        | _ => suppressNoBracket r2
      | _ => suppressNoBracket r2
  | _ => none

/-- `re.search` for `_SUPPRESS_RE`: the leftmost position whose suffix
matches. -/
def searchSuppress : List Char → Option (Option (List Char))
  | [] => none
  | c :: cs =>
    match suppressAt (c :: cs) with
    | some r => some r
    | none => searchSuppress cs

/-- `parse_inline_suppression` (lines 42–56): `(is_suppressed, rule_ids)`;
`none` in the second component suppresses all rules. -/
def parse_inline_suppression (line_content : String) :
    Bool × Option (List String) :=
  match searchSuppress line_content.data with
  | none => (false, none)
  | some none => (true, none)
  | some (some scope) =>
    (true, some (((splitCommas scope).map
      (fun cs => pyStrip (String.mk cs))).filter
      (fun t => !t.data.isEmpty)))

/-- `is_pure_comment` (lines 59–66). -/
def is_pure_comment (line_content : String) : Bool :=
  let stripped := pyStrip line_content
  strStarts stripped "#" || strStarts stripped "//" || strStarts stripped "/*"

/-- One entry of the per-file map `line_no → (suppress_all, specific_rules)`.
The Python frozenset of rule ids is modelled by a list (only membership is
ever consulted). -/
abbrev SupEntry := Bool × Option (List String)

/-- Overwrite-update of the per-file line map (a Python dict used only via
lookups). -/
def mapUpdate (m : Int → Option SupEntry) (k : Int) (v : SupEntry) :
    Int → Option SupEntry :=
  fun j => if j = k then some v else m j

/-- The loop body of `SuppressionChecker.register_lines` (lines 85–108),
threading `(mapping, prev_suppress, prev_was_comment)`. -/
def registerGo : List (Int × String) → (Int → Option SupEntry) →
    Option SupEntry → Bool → (Int → Option SupEntry)
  | [], m, _, _ => m
  | (n, c) :: rest, m, prevSup, prevWasComment =>
    let pr := parse_inline_suppression c
    if pr.1 then
      let m1 := mapUpdate m n (true, pr.2)
      if is_pure_comment c then registerGo rest m1 (some (true, pr.2)) true
      else registerGo rest m1 none false
    else
      match prevSup, prevWasComment with
      | some e, true => registerGo rest (mapUpdate m n e) none false
      | _, _ => registerGo rest m none false

/-- `register_lines` for one file, starting from the empty map. -/
def registerLines (lines : List (Int × String)) : Int → Option SupEntry :=
  registerGo lines (fun _ => none) none false

/-- The `SuppressionChecker` after its pre-scan: `_line_suppressions`
maps a file to its line map (`none` when the file had no added lines). -/
structure SuppressionChecker where
  lineSuppressions : String → Option (Int → Option SupEntry)

/-- `SuppressionChecker.is_suppressed` (lines 112–137). -/
def checkerIsSuppressed (ck : SuppressionChecker) (file : String)
    (lineNo : Int) (ruleId : String) : Option Suppression :=
  match ck.lineSuppressions file with
  | none => none
  | some fileMap =>
    match fileMap lineNo with
    | none => none
    | some (suppressAll, specificIds) =>
      if suppressAll && specificIds.isNone then
        some ⟨ruleId, file, lineNo, "inline", "#gitsafe-ignore"⟩
      else
        match specificIds with
        | some ids =>
          if ids.contains ruleId then
            some ⟨ruleId, file, lineNo, "inline",
              "#gitsafe-ignore[" ++ ruleId ++ "]"⟩
          else none
        | none => none

/-- The per-file `(line_no, content)` buckets the engine builds at
lines 80–82 of `engine.py` from the materialised event list. -/
def addedLinesOf (events : List DiffItem) (file : String) :
    List (Int × String) :=
  events.filterMap fun e =>
    match e with
    | .line f n c lt =>
      if f = file && lt = LineType.added then some (n, c) else none
    | _ => none

/-- The suppression pre-scan of `engine.py` lines 84–87: register each
file's added lines.  A file is a key of `_line_suppressions` exactly when
it has at least one added line. -/
def buildChecker (events : List DiffItem) : SuppressionChecker :=
  ⟨fun file =>
    let ls := addedLinesOf events file
    if ls.isEmpty then none else some (registerLines ls)⟩

/-- `GitSafeIgnore` after `from_file` (file input is external, so the
parsed state is taken as input; each glob is an abstract `fnmatch`
predicate). -/
structure GitSafeIgnore where
  globalPatterns : List (String → Bool)
  rulePatterns : String → List (String → Bool)

/-- `GitSafeIgnore.is_ignored` (lines 169–178).  The Python guard
`if rule_id:` is false for `None` and for the empty string. -/
def giIsIgnored (gi : GitSafeIgnore) (filepath : String)
    (ruleId : Option String) : Bool :=
  gi.globalPatterns.any (fun g => g filepath) ||
  (match ruleId with
   | some rid =>
     if rid = "" then false
     else (gi.rulePatterns rid).any (fun g => g filepath)
   | none => false)

/-! ## Severity order (`gitsafe/config/schema.py`) and finding models
(`gitsafe/findings/models.py`) -/

/-- `SEVERITY_ORDER.get(s, 0)`: the dict maps low/medium/high/critical to
0/1/2/3 and every other string defaults to 0. -/
def SEVERITY_ORDER_get (s : String) : Nat :=
  if s = "low" then 0
  else if s = "medium" then 1
  else if s = "high" then 2
  else if s = "critical" then 3
  else 0

/-- `severity_at_or_above` (schema.py lines 24–26). -/
def severity_at_or_above (finding_sev threshold : String) : Bool :=
  decide (SEVERITY_ORDER_get threshold ≤ SEVERITY_ORDER_get finding_sev)

/-- `RawFinding` dataclass.  `entropy_value` is a Python float, embedded as
a rational. -/
structure RawFinding where
  rule_id : String
  rule_name : String
  severity : String
  category : String
  file : String
  line_no : Int
  matched_value : String
  description : String
  detection_method : String
  entropy_value : Option ℚ
  commit : Option String
deriving DecidableEq

/-- `Finding` dataclass. -/
structure Finding where
  id : String
  rule_id : String
  rule_name : String
  severity : String
  category : String
  file : String
  line_no : Int
  matched_value : String
  description : String
  detection_methods : List String
  entropy_value : Option ℚ
  commit : Option String
  is_blocking : Bool
deriving DecidableEq

/-- The dedup key `(rule_id, file, line_no)`. -/
def keyOf (r : RawFinding) : String × String × Int :=
  (r.rule_id, r.file, r.line_no)

/-- The key of a merged finding. -/
def fkey (f : Finding) : String × String × Int :=
  (f.rule_id, f.file, f.line_no)

/-! ## Aggregator (`gitsafe/findings/aggregator.py`) -/

/-- Python `"FINDING-" + format(counter, "03d")`: decimal, zero-padded to
width 3. -/
def pad3 (n : Nat) : String :=
  let s := toString n
  if s.data.length < 3 then
    String.mk (List.replicate (3 - s.data.length) '0') ++ s
  else s

/-- First occurrence of a key (aggregator lines 38–53). -/
def newFinding (counter : Nat) (raw : RawFinding) (failOn : String) :
    Finding :=
  { id := "FINDING-" ++ pad3 counter
    rule_id := raw.rule_id
    rule_name := raw.rule_name
    severity := raw.severity
    category := raw.category
    file := raw.file
    line_no := raw.line_no
    matched_value := raw.matched_value
    description := raw.description
    detection_methods := [raw.detection_method]
    entropy_value := raw.entropy_value
    commit := raw.commit
    is_blocking := severity_at_or_above raw.severity failOn }

/-- Merge of a later occurrence into the existing finding (aggregator
lines 24–36): append the detection method if new, lift the severity if
strictly higher, keep the newest entropy value. -/
def mergeInto (f : Finding) (raw : RawFinding) : Finding :=
  let f1 :=
    if f.detection_methods.contains raw.detection_method then f
    else { f with detection_methods :=
      f.detection_methods ++ [raw.detection_method] }
  let f2 :=
    if SEVERITY_ORDER_get f1.severity < SEVERITY_ORDER_get raw.severity then
      { f1 with severity := raw.severity }
    else f1
  match raw.entropy_value with
  | some v => { f2 with entropy_value := some v }
  | none => f2

/-- The insertion-ordered dict `merged` of `deduplicate`, as an
association list. -/
abbrev Merged := List ((String × String × Int) × Finding)

/-- The loop of `deduplicate` (lines 21–55). -/
def dedupGo (failOn : String) : List RawFinding → Merged → Nat → Merged
  | [], merged, _ => merged
  | raw :: rest, merged, counter =>
    let key := keyOf raw
    if merged.any (fun e => e.1 = key) then
      dedupGo failOn rest
        (merged.map (fun e =>
          if e.1 = key then (e.1, mergeInto e.2 raw) else e))
        counter
    else
      dedupGo failOn rest
        (merged ++ [(key, newFinding (counter + 1) raw failOn)])
        (counter + 1)

/-- `deduplicate(raw_findings, fail_on)`: the merged findings in first-key
insertion order (`list(merged.values())`). -/
def deduplicate (raw_findings : List RawFinding) (fail_on : String) :
    List Finding :=
  (dedupGo fail_on raw_findings [] 0).map (fun e => e.2)

/-! ## Scan engine (`gitsafe/scanner/engine.py`)

External pieces are abstracted:

* a rule's `compiled_pattern.search` together with the extraction
  `m.group("secret") if "secret" in m.groupdict() else m.group(0)` is one
  function `search : String → Except String (Option String)`; `.ok none`
  covers both no-match and `compiled_pattern is None`; `.error msg` models
  an arbitrary internal Python exception escaping from the matching code
  (the only fallible point of the main loop in this embedding), carrying an
  arbitrary message that may even contain secret text — the engine must
  scrub it;
* `_match_rule_allowlist` on a rule's precompiled allowlist is
  `allowMatch : String → Bool`, and each glob of `fnmatch` is an abstract
  `String → Bool`;
* `Path(filepath).name` is the component after the last `/`. -/

/-- A compiled content (or entropy) rule as seen by the scan loop. -/
structure ContentRule where
  id : String
  name : String
  severity : String
  category : String
  description : String
  isEntropyRule : Bool
  search : String → Except String (Option String)
  allowMatch : String → Bool

/-- A compiled file rule (`is_file_rule`: has `file_patterns`, no
`pattern`). -/
structure FileRule where
  id : String
  name : String
  severity : String
  category : String
  description : String
  filePatterns : List (String → Bool)
  allowMatch : String → Bool

/-- The registry selectors used by `scan`: `content_rules()` and
`file_rules()`, in registration order. -/
structure Registry where
  contentRules : List ContentRule
  fileRules : List FileRule

/-- The configuration fields `scan` reads (schema.py), with the two glob
lists `ignore.files + ignore.paths` already concatenated as at engine.py
line 64 and the global allowlist already compiled (line 56–58). -/
structure EConfig where
  failOn : String
  earlyExit : Bool
  entropyEnabled : Bool
  minEntropy : ℚ
  minLength : Nat
  maxFindings : Option Nat
  ignoreGlobs : List (String → Bool)
  globalAllowlist : List (String → Bool)

/-- The abstracted floating-point pieces of the entropy scan: the Shannon
score and the `"{:.2f}"` formatting used in the description. -/
structure EntropyModel where
  H : String → ℚ
  fmt : ℚ → String

/-- `_match_global_allowlist` / any-of matching. -/
def anyMatch (patterns : List (String → Bool)) (text : String) : Bool :=
  patterns.any (fun p => p text)

/-- `Path(filepath).name`, modelled as the component after the last `/`. -/
def pathBasename (p : String) : String :=
  String.mk ((p.data.reverse.takeWhile (fun c => c ≠ '/')).reverse)

/-- Python `set.add` on a set used for membership and size, modelled as an
insertion-ordered duplicate-free list. -/
def insertNew (l : List String) (x : String) : List String :=
  if x ∈ l then l else l ++ [x]

/-- The engine's mutable locals (engine.py lines 69–73) plus a flag for
the `break` of the circuit breaker. -/
structure EngineState where
  rawFindings : List RawFinding
  suppressions : List Suppression
  skippedFiles : List String
  scannedFiles : List String
  ignoredFiles : List String
  stopped : Bool
deriving DecidableEq

/-- Engine start state. -/
def initES : EngineState := ⟨[], [], [], [], [], false⟩

/-- File-rule check for one rule (engine.py lines 120–141): first matching
glob decides; the rule's own allowlist is tested against the basename. -/
def fileRuleFinding (filepath basename : String) (r : FileRule) :
    Option RawFinding :=
  match r.filePatterns.find? (fun g => g basename || g filepath) with
  | none => none
  | some _ =>
    if r.allowMatch basename then none
    else some
      { rule_id := r.id
        rule_name := r.name
        severity := r.severity
        category := r.category
        file := filepath
        line_no := 0
        matched_value := basename
        description := r.description
        detection_method := "file_pattern"
        entropy_value := none
        commit := none }

/-- All file-rule findings for one `DiffFile`. -/
def fileFindings (reg : Registry) (filepath : String) : List RawFinding :=
  reg.fileRules.filterMap (fileRuleFinding filepath (pathBasename filepath))

/-- A regex raw finding (engine.py lines 193–205). -/
def mkRegexFinding (r : ContentRule) (filepath : String) (lineNo : Int)
    (matched : String) : RawFinding :=
  { rule_id := r.id
    rule_name := r.name
    severity := r.severity
    category := r.category
    file := filepath
    line_no := lineNo
    matched_value := matched
    description := r.description
    detection_method := "regex"
    entropy_value := none
    commit := none }

/-- The content-rule loop over one added line (engine.py lines 161–212),
including the rule/global allowlists, the `.gitsafeignore` rule-scoped
check, inline suppression, and the critical early exit. -/
def contentLoop (cfg : EConfig) (gi : GitSafeIgnore)
    (ck : SuppressionChecker) (filepath : String) (lineNo : Int)
    (content : String) :
    List ContentRule → EngineState → Except (String × EngineState) EngineState
  | [], st => .ok st
  | r :: rs, st =>
    if r.isEntropyRule then
      contentLoop cfg gi ck filepath lineNo content rs st
    else
      match r.search content with
      | .error msg => .error (msg, st)
      | .ok none => contentLoop cfg gi ck filepath lineNo content rs st
      | .ok (some matched) =>
        if r.allowMatch matched then
          contentLoop cfg gi ck filepath lineNo content rs st
        else if anyMatch cfg.globalAllowlist matched then
          contentLoop cfg gi ck filepath lineNo content rs st
        else if giIsIgnored gi filepath (some r.id) then
          contentLoop cfg gi ck filepath lineNo content rs st
        else
          match checkerIsSuppressed ck filepath lineNo r.id with
          | some sup =>
            contentLoop cfg gi ck filepath lineNo content rs
              { st with suppressions := st.suppressions ++ [sup] }
          | none =>
            let st1 := { st with rawFindings :=
              st.rawFindings ++ [mkRegexFinding r filepath lineNo matched] }
            if cfg.earlyExit && r.severity = "critical" then .ok st1
            else contentLoop cfg gi ck filepath lineNo content rs st1

/-- One entropy candidate (engine.py lines 220–248). -/
def entropyHit (cfg : EConfig) (gi : GitSafeIgnore)
    (ck : SuppressionChecker) (em : EntropyModel) (filepath : String)
    (lineNo : Int) (st : EngineState) (hit : String × ℚ) : EngineState :=
  if anyMatch cfg.globalAllowlist hit.1 then st
  else if giIsIgnored gi filepath (some "HIGH_ENTROPY_STRING") then st
  else
    match checkerIsSuppressed ck filepath lineNo "HIGH_ENTROPY_STRING" with
    | some sup => { st with suppressions := st.suppressions ++ [sup] }
    | none =>
      { st with rawFindings := st.rawFindings ++
        [{ rule_id := "HIGH_ENTROPY_STRING"
           rule_name := "High-Entropy String"
           severity := "medium"
           category := "sensitive"
           file := filepath
           line_no := lineNo
           matched_value := hit.1
           description := "Shannon entropy " ++ em.fmt hit.2 ++ " bits"
           detection_method := "entropy"
           entropy_value := some hit.2
           commit := none }] }

/-- The entropy block (engine.py lines 215–248). -/
def entropyPhase (cfg : EConfig) (gi : GitSafeIgnore)
    (ck : SuppressionChecker) (em : EntropyModel) (filepath : String)
    (lineNo : Int) (content : String) (st : EngineState) : EngineState :=
  if cfg.entropyEnabled then
    (find_high_entropy em.H content cfg.minEntropy cfg.minLength).foldl
      (entropyHit cfg gi ck em filepath lineNo) st
  else st

/-- The CI circuit breaker (engine.py lines 250–253): `break` once the raw
list reaches `ci.max_findings`. -/
def breakerCheck (cfg : EConfig) (st : EngineState) : EngineState :=
  match cfg.maxFindings with
  | some n =>
    if n ≤ st.rawFindings.length then { st with stopped := true } else st
  | none => st

/-- One iteration of the main pass (engine.py lines 95–253); a set
`stopped` flag models having left the loop via `break`. -/
def stepEvent (cfg : EConfig) (reg : Registry) (gi : GitSafeIgnore)
    (ck : SuppressionChecker) (em : EntropyModel) (st : EngineState)
    (ev : DiffItem) : Except (String × EngineState) EngineState :=
  if st.stopped then .ok st
  else
    match ev with
    | .skipped path reason =>
      .ok { st with skippedFiles :=
        st.skippedFiles ++ [path ++ " (" ++ reason ++ ")"] }
    | .file path _ _ =>
      if cfg.ignoreGlobs.any (fun g => g path) then
        .ok { st with
          skippedFiles := st.skippedFiles ++ [path ++ " (ignored)"]
          ignoredFiles := insertNew st.ignoredFiles path }
      else if giIsIgnored gi path none then
        .ok { st with
          skippedFiles := st.skippedFiles ++ [path ++ " (gitsafeignore)"]
          ignoredFiles := insertNew st.ignoredFiles path }
      else
        .ok { st with
          scannedFiles := insertNew st.scannedFiles path
          rawFindings := st.rawFindings ++ fileFindings reg path }
    | .line filepath lineNo content lineType =>
      if lineType = LineType.added then
        if filepath ∈ st.ignoredFiles then .ok st
        else
          let st1 :=
            { st with scannedFiles := insertNew st.scannedFiles filepath }
          match contentLoop cfg gi ck filepath lineNo content
              reg.contentRules st1 with
          | .error e => .error e
          | .ok st2 =>
            .ok (breakerCheck cfg
              (entropyPhase cfg gi ck em filepath lineNo content st2))
      else .ok st

/-- The main pass over the materialised event list. -/
def runEvents (cfg : EConfig) (reg : Registry) (gi : GitSafeIgnore)
    (ck : SuppressionChecker) (em : EntropyModel) :
    List DiffItem → EngineState → Except (String × EngineState) EngineState
  | [], st => .ok st
  | e :: es, st =>
    match stepEvent cfg reg gi ck em st e with
    | .error err => .error err
    | .ok st1 => runEvents cfg reg gi ck em es st1

/-- `ScanResult` (findings/models.py).  `scan_duration_ms` is wall-clock
time, external to the embedding. -/
structure ScanResult where
  findings : List Finding
  suppressed : List Suppression
  skipped_files : List String
  scanned_files : Nat
  blocked : Bool
  scan_duration_ms : ℚ
deriving DecidableEq

/-- The `ScanError` value: it carries only its message string. -/
structure ScanErr where
  message : String
deriving DecidableEq

/-- The scrubbed message built by the handler at engine.py lines 262–265:
`f"Internal scanner error after {n} findings. "` followed by
`"Secrets have been scrubbed from this error."`. -/
def scrubMessage (n : Nat) : String :=
  "Internal scanner error after " ++ toString n ++
  " findings. Secrets have been scrubbed from this error."

/-- Dedup, severity gate and result assembly (engine.py lines 267–280). -/
def mkScanResult (cfg : EConfig) (st : EngineState) : ScanResult :=
  let findings := deduplicate st.rawFindings cfg.failOn
  { findings := findings
    suppressed := st.suppressions
    skipped_files := st.skippedFiles
    scanned_files := st.scannedFiles.length
    blocked := findings.any (fun f => f.is_blocking)
    scan_duration_ms := 0 }

/-- `scan` (engine.py lines 44–280): parse, build the suppression index,
run the main pass, and either scrub an internal error (the `except
Exception` handler reads `len(raw_findings)` and drops the list) or
aggregate the result. -/
def scanE (cfg : EConfig) (reg : Registry) (gi : GitSafeIgnore)
    (em : EntropyModel) (diffText : String) : Except ScanErr ScanResult :=
  let events := parseDiff diffText
  let ck := buildChecker events
  match runEvents cfg reg gi ck em events initES with
  | .error e => .error ⟨scrubMessage e.2.rawFindings.length⟩
  | .ok st => .ok (mkScanResult cfg st)

/-! ## Relations and auxiliary definitions used by the theorems -/

/-- A `+` content line: starts with `+` but is caught by none of the
earlier branches of the main loop.  (A `+`-line can only collide with the
`+++` file header or a submodule pointer; the other branch guards start
with different characters.) -/
def isPlusContent (x : String) : Bool :=
  strStarts x "+" && !isFileHeaderNew x && !isSubproject x

/-- The explicit `(mapping, prev_suppress, prev_was_comment)` thread of
one iteration of `register_lines`. -/
def regStep (s : (Int → Option SupEntry) × Option SupEntry × Bool)
    (lc : Int × String) : (Int → Option SupEntry) × Option SupEntry × Bool :=
  let pr := parse_inline_suppression lc.2
  if pr.1 then
    if is_pure_comment lc.2 then
      (mapUpdate s.1 lc.1 (true, pr.2), some (true, pr.2), true)
    else (mapUpdate s.1 lc.1 (true, pr.2), none, false)
  else
    match s.2.1, s.2.2 with
    | some e, true => (mapUpdate s.1 lc.1 e, none, false)
    | _, _ => (s.1, none, false)

/-- The folded register thread. -/
def regThread (lines : List (Int × String))
    (s : (Int → Option SupEntry) × Option SupEntry × Bool) :
    (Int → Option SupEntry) × Option SupEntry × Bool :=
  lines.foldl regStep s

/-- State relation for the allowlist-monotonicity proof: the second run
(a larger global allowlist) has sublists of raw findings and suppressions
and identical bookkeeping. -/
def SubRel (s₁ s₂ : EngineState) : Prop :=
  s₂.rawFindings.Sublist s₁.rawFindings ∧
  s₂.suppressions.Sublist s₁.suppressions ∧
  s₂.skippedFiles = s₁.skippedFiles ∧
  s₂.scannedFiles = s₁.scannedFiles ∧
  s₂.ignoredFiles = s₁.ignoredFiles ∧
  s₂.stopped = s₁.stopped

/-- State relation for the suppression-sum proof: the two runs agree on
`|raw findings| + |suppressions|` and on all bookkeeping. -/
def SumRel (s₁ s₂ : EngineState) : Prop :=
  s₁.rawFindings.length + s₁.suppressions.length =
    s₂.rawFindings.length + s₂.suppressions.length ∧
  s₁.skippedFiles = s₂.skippedFiles ∧
  s₁.scannedFiles = s₂.scannedFiles ∧
  s₁.ignoredFiles = s₂.ignoredFiles ∧
  s₁.stopped = s₂.stopped

/-- Event relation for the suppression-sum proof: identical events, except
that an added line's content may change as long as every content rule's
search result and the entropy hits are unchanged (adding an inline marker
that no rule matches is such a change). -/
def evRel (cr : List ContentRule) (em : EntropyModel) (me : ℚ) (ml : Nat) :
    DiffItem → DiffItem → Prop
  | .file p o s, .file p2 o2 s2 => p = p2 ∧ o = o2 ∧ s = s2
  | .skipped p r, .skipped p2 r2 => p = p2 ∧ r = r2
  | .line f n c lt, .line f2 n2 c2 lt2 =>
    f = f2 ∧ n = n2 ∧ lt = lt2 ∧
    (∀ r ∈ cr, r.search c2 = r.search c) ∧
    find_high_entropy em.H c2 me ml = find_high_entropy em.H c me ml
  | _, _ => False

/-- Would a `DiffFile` for `P` be marked ignored (engine.py lines
106–115)?  The decision depends only on the path. -/
def wouldMark (cfg : EConfig) (gi : GitSafeIgnore) (P : String) : Bool :=
  cfg.ignoreGlobs.any (fun g => g P) || giIsIgnored gi P none

/-- Every added line for `P` in the event list is preceded by a `DiffFile`
event for `P`. -/
def precededBy (P : String) : List DiffItem → Bool
  | [] => true
  | .file p _ _ :: rest => if p = P then true else precededBy P rest
  | .line f _ _ lt :: rest =>
    !(f = P && lt = LineType.added) && precededBy P rest
  | .skipped _ _ :: rest => precededBy P rest

/-- Invariant for the ignored-path proof: no finding, no suppression, no
scanned-set entry for `P`. -/
def KInv (P : String) (s : EngineState) : Prop :=
  (∀ r ∈ s.rawFindings, r.file ≠ P) ∧
  (∀ u ∈ s.suppressions, u.file ≠ P) ∧
  P ∉ s.scannedFiles

/-! ## Concrete fixtures (used by counterexamples and witnesses)

The claims quantify over configurations, registries and repository
roots; the fixtures below are particular instances: small rules with
explicit search functions, an empty `.gitsafeignore` and a trivial
entropy model. -/

/-- A critical content rule matching any line containing `AKIA`. -/
def ruleAWS : ContentRule :=
  { id := "AWS_ACCESS_KEY"
    name := "AWS Access Key"
    severity := "critical"
    category := "key"
    description := "AWS access key id"
    isEntropyRule := false
    search := fun s =>
      .ok (if containsRun "AKIA".data s.data
           then some "AKIAIOSFODNN7REAL123" else none)
    allowMatch := fun _ => false }

/-- A medium content rule matching any line containing `tok`. -/
def ruleTok : ContentRule :=
  { id := "GENERIC_TOKEN"
    name := "Generic Token"
    severity := "medium"
    category := "secret"
    description := "generic token"
    isEntropyRule := false
    search := fun s =>
      .ok (if containsRun "tok".data s.data then some "tok" else none)
    allowMatch := fun _ => false }

/-- A rule whose pattern matching raises an internal exception; the
escaping message even contains secret-looking text. -/
def ruleErr : ContentRule :=
  { id := "BAD_RULE"
    name := "Bad"
    severity := "low"
    category := "secret"
    description := "raises"
    isEntropyRule := false
    search := fun _ => .error "unexpected failure near AKIAIOSFODNN7REAL123"
    allowMatch := fun _ => false }

/-- Trivial entropy model (entropy is disabled in the fixtures). -/
def emT : EntropyModel := ⟨fun _ => 0, fun _ => "0.00"⟩

/-- Empty `.gitsafeignore`. -/
def giE : GitSafeIgnore := ⟨[], fun _ => []⟩

/-- Baseline config: `fail_on=high`, no early exit, entropy off, no
circuit breaker, no ignores, empty global allowlist. -/
def cfg0 : EConfig :=
  { failOn := "high"
    earlyExit := false
    entropyEnabled := false
    minEntropy := 0
    minLength := 16
    maxFindings := none
    ignoreGlobs := []
    globalAllowlist := [] }

/-- Baseline config with `scan.early_exit = true`. -/
def cfgEE : EConfig := { cfg0 with earlyExit := true }

/-- Registry with the two content rules. -/
def reg2 : Registry := ⟨[ruleAWS, ruleTok], []⟩

/-- Registry with the raising rule. -/
def regErr : Registry := ⟨[ruleErr], []⟩

/-- The global allowlist pattern added in the allowlist fixtures. -/
def allowAKIA : String → Bool := fun s => s = "AKIAIOSFODNN7REAL123"

/-- Diff with one added line matching both content rules. -/
def exD1 : String :=
  "diff --git a/config.py b/config.py\n@@ -0,0 +1 @@\n+key = AKIA tok"

/-- `exD1` with an inline suppress-all marker appended to the line. -/
def exD2 : String :=
  "diff --git a/config.py b/config.py\n@@ -0,0 +1 @@\n+key = AKIA tok #gitsafe-ignore"

/-- Degenerate diff: a binary marker followed by a stray `+` line for the
same path, then a second header for that path. -/
def exDP : String :=
  "diff --git a/P b/P\nBinary files a/P and b/P differ\n+AKIA\ndiff --git a/P b/P"

/-- Well-formed diff for the ignored path `P`. -/
def exDPgood : String := "diff --git a/P b/P\n@@ -0,0 +1 @@\n+AKIA"

/-- Diff whose added line starts with two U+FEFF characters. -/
def exDBom : String := "diff --git a/f b/f\n@@ -0,0 +1 @@\n+﻿﻿ab"

/-- Diff with a context line between the hunk header (`+5`) and the first
`+` line. -/
def exDCtx : String := "diff --git a/f b/f\n@@ -1,2 +5,2 @@\n x\n+y"

/-- Diff with a binary marker followed by a stray `+` line. -/
def exDBin : String := "diff --git a/f b/f\nBinary files a/f and b/f differ\n+x"

/-- Config whose ignore globs match exactly the path `P`. -/
def cfgP : EConfig := { cfg0 with ignoreGlobs := [fun p => p = "P"] }

/-- Two raw findings sharing the key (`R`, `f`, 1) with distinct
severities: the first is `medium`, the second `high`. -/
def exRawMedium : RawFinding :=
  { rule_id := "R"
    rule_name := "R"
    severity := "medium"
    category := "secret"
    file := "f"
    line_no := 1
    matched_value := "v"
    description := ""
    detection_method := "entropy"
    entropy_value := none
    commit := none }

/-- The `high` duplicate of `exRawMedium`. -/
def exRawHigh : RawFinding :=
  { exRawMedium with severity := "high", detection_method := "regex" }

/-- The merged finding `deduplicate` produces for
`[exRawMedium, exRawHigh]` with `fail_on = "high"`. -/
def exMergedF : Finding :=
  { id := "FINDING-001"
    rule_id := "R"
    rule_name := "R"
    severity := "high"
    category := "secret"
    file := "f"
    line_no := 1
    matched_value := "v"
    description := ""
    detection_methods := ["entropy", "regex"]
    entropy_value := none
    commit := none
    is_blocking := false }

/-- The engine state at the moment `ruleErr` raises on `exD1`. -/
def exErrState : EngineState := ⟨[], [], [], ["config.py"], [], false⟩

/-- Fallback result used by the total extractors below. -/
def emptyResult : ScanResult := ⟨[], [], [], 0, false, 0⟩

/-- The `.ok` payload of a scan, with an empty-result fallback. -/
def okResult (x : Except ScanErr ScanResult) : ScanResult :=
  match x with
  | .ok r => r
  | .error _ => emptyResult

/-- Result of scanning `exD1` with the baseline config. -/
def exC3res1 : ScanResult := okResult (scanE cfg0 reg2 giE emT exD1)

/-- Result of scanning `exD1` with the baseline config extended by
`allowAKIA`. -/
def exC3res2 : ScanResult :=
  okResult (scanE { cfg0 with
    globalAllowlist := cfg0.globalAllowlist ++ [allowAKIA] } reg2 giE emT exD1)

/-- Placeholder finding used by total head extractors. -/
def fallbackFinding : Finding :=
  ⟨"", "", "", "", "", "", 0, "", "", [], none, none, false⟩

/-- The first finding of the extended-allowlist run on `exD1`. -/
def exC3f2 : Finding :=
  match exC3res2.findings with
  | f :: _ => f
  | [] => fallbackFinding

/-- The `.ok` payload of a main pass, with the initial state as
fallback. -/
def okState (x : Except (String × EngineState) EngineState) : EngineState :=
  match x with
  | .ok s => s
  | .error _ => initES

/-- Final state of the main pass on `exD1` (baseline config). -/
def exC4t1 : EngineState :=
  okState (runEvents cfg0 reg2 giE (buildChecker (parseDiff exD1)) emT
    (parseDiff exD1) initES)

/-- Final state of the main pass on `exD2` (marker variant). -/
def exC4t2 : EngineState :=
  okState (runEvents cfg0 reg2 giE (buildChecker (parseDiff exD2)) emT
    (parseDiff exD2) initES)

/-- Final state of the main pass on the well-formed ignored-path diff
`exDPgood` under `cfgP`. -/
def exC10t : EngineState :=
  okState (runEvents cfgP reg2 giE (buildChecker (parseDiff exDPgood)) emT
    (parseDiff exDPgood) initES)

/-- The raw findings sharing a dedup key. -/
def grpFor (raws : List RawFinding) (k : String × String × Int) :
    List RawFinding :=
  raws.filter (fun r => keyOf r = k)

/-- Closed form of the content-rule loop's contribution (no early exit,
no error): the raw findings and suppressions it appends, in rule order. -/
def contentOut (ga : List (String → Bool)) (gi : GitSafeIgnore)
    (ck : SuppressionChecker) (fp : String) (ln : Int) (content : String) :
    List ContentRule → List RawFinding × List Suppression
  | [] => ([], [])
  | r :: rs =>
    let rest := contentOut ga gi ck fp ln content rs
    if r.isEntropyRule then rest
    else
      match r.search content with
      | .error _ => rest
      | .ok none => rest
      | .ok (some matched) =>
        if r.allowMatch matched then rest
        else if anyMatch ga matched then rest
        else if giIsIgnored gi fp (some r.id) then rest
        else
          match checkerIsSuppressed ck fp ln r.id with
          | some sup => (rest.1, sup :: rest.2)
          | none => (mkRegexFinding r fp ln matched :: rest.1, rest.2)

/-- Closed form of the entropy phase's contribution over a hit list. -/
def entropyOut (ga : List (String → Bool)) (gi : GitSafeIgnore)
    (ck : SuppressionChecker) (em : EntropyModel) (fp : String) (ln : Int) :
    List (String × ℚ) → List RawFinding × List Suppression
  | [] => ([], [])
  | hit :: hs =>
    let rest := entropyOut ga gi ck em fp ln hs
    if anyMatch ga hit.1 then rest
    else if giIsIgnored gi fp (some "HIGH_ENTROPY_STRING") then rest
    else
      match checkerIsSuppressed ck fp ln "HIGH_ENTROPY_STRING" with
      | some sup => (rest.1, sup :: rest.2)
      | none =>
        ({ rule_id := "HIGH_ENTROPY_STRING"
           rule_name := "High-Entropy String"
           severity := "medium"
           category := "sensitive"
           file := fp
           line_no := ln
           matched_value := hit.1
           description := "Shannon entropy " ++ em.fmt hit.2 ++ " bits"
           detection_method := "entropy"
           entropy_value := some hit.2
           commit := none } :: rest.1, rest.2)

/-- The entropy hit list the engine scans on a line (empty when entropy is
disabled). -/
def lineHits (cfg : EConfig) (em : EntropyModel) (content : String) :
    List (String × ℚ) :=
  if cfg.entropyEnabled then
    find_high_entropy em.H content cfg.minEntropy cfg.minLength
  else []

/-- Loop invariant of `deduplicate`: every merged entry has its own key,
its severity is an upper bound of (and occurs among) the severities of its
key group, its blocking flag was computed from the group's first raw
finding, and every processed raw finding has an entry. -/
def DedupInv (failOn : String) (processed : List RawFinding)
    (merged : Merged) : Prop :=
  (∀ e ∈ merged, fkey e.2 = e.1 ∧
    (∀ r ∈ grpFor processed e.1,
      SEVERITY_ORDER_get r.severity ≤ SEVERITY_ORDER_get e.2.severity) ∧
    e.2.severity ∈ (grpFor processed e.1).map (fun r => r.severity) ∧
    (∃ r0, (grpFor processed e.1).head? = some r0 ∧
      e.2.is_blocking = severity_at_or_above r0.severity failOn)) ∧
  (∀ r ∈ processed, ∃ e ∈ merged, e.1 = keyOf r)

end GitSafe

namespace GitSafe

/-! # Theorems

Shared infrastructure lemmas first, then one theorem (with counterexample
and witness where required) per claim. -/

/-! ## Aggregator lemmas -/

/-- `mergeInto` keeps the key and blocking flag and lifts the severity to
the ordinal maximum of the two. -/
theorem mergeInto_fields (f : Finding) (raw : RawFinding) :
    fkey (mergeInto f raw) = fkey f ∧
    (mergeInto f raw).is_blocking = f.is_blocking ∧
    (mergeInto f raw).severity =
      (if SEVERITY_ORDER_get f.severity < SEVERITY_ORDER_get raw.severity
       then raw.severity else f.severity) := by
  unfold mergeInto
  cases hev : raw.entropy_value <;>
    cases h1 : f.detection_methods.contains raw.detection_method <;>
      by_cases h2 :
          SEVERITY_ORDER_get f.severity < SEVERITY_ORDER_get raw.severity <;>
        simp [h1, h2, fkey]

/-- `newFinding` fields used by the invariant. -/
theorem newFinding_fields (c : Nat) (raw : RawFinding) (failOn : String) :
    fkey (newFinding c raw failOn) = keyOf raw ∧
    (newFinding c raw failOn).severity = raw.severity ∧
    (newFinding c raw failOn).is_blocking =
      severity_at_or_above raw.severity failOn := by
  simp [newFinding, fkey, keyOf]

/-- Appending one raw finding to the processed list extends exactly the
group of its key. -/
theorem grpFor_append (processed : List RawFinding) (raw : RawFinding)
    (k : String × String × Int) :
    grpFor (processed ++ [raw]) k =
      grpFor processed k ++ (if keyOf raw = k then [raw] else []) := by
  simp only [grpFor, List.filter_append]
  congr 1
  by_cases h : keyOf raw = k <;> simp [h]

/-- One step of the `deduplicate` loop preserves the invariant. -/
theorem dedupInv_step (failOn : String) (processed : List RawFinding)
    (merged : Merged) (raw : RawFinding) (counter : Nat)
    (h : DedupInv failOn processed merged) :
    DedupInv failOn (processed ++ [raw])
      (if merged.any (fun e => e.1 = keyOf raw) then
        merged.map (fun e =>
          if e.1 = keyOf raw then (e.1, mergeInto e.2 raw) else e)
      else merged ++ [(keyOf raw, newFinding (counter + 1) raw failOn)]) := by
  obtain ⟨hent, hcomp⟩ := h
  by_cases hany : merged.any (fun e => e.1 = keyOf raw) = true
  · simp only [hany, if_true]
    constructor
    · intro e' he'
      obtain ⟨e, he, rfl⟩ := List.mem_map.mp he'
      obtain ⟨hk, hub, hmem, r0, hhead, hblock⟩ := hent e he
      by_cases hek : e.1 = keyOf raw
      · rw [if_pos hek]
        have hm := mergeInto_fields e.2 raw
        have hgr : grpFor (processed ++ [raw]) e.1 =
            grpFor processed e.1 ++ [raw] := by
          rw [grpFor_append, if_pos hek.symm]
        refine ⟨?_, ?_, ?_, ?_⟩
        · show fkey (mergeInto e.2 raw) = e.1
          rw [hm.1, hk]
        · show ∀ r ∈ grpFor (processed ++ [raw]) e.1,
            SEVERITY_ORDER_get r.severity ≤
              SEVERITY_ORDER_get (mergeInto e.2 raw).severity
          intro r hr
          rw [hgr] at hr
          rw [hm.2.2]
          by_cases hlt : SEVERITY_ORDER_get e.2.severity <
              SEVERITY_ORDER_get raw.severity
          · rw [if_pos hlt]
            rcases List.mem_append.mp hr with hr | hr
            · exact le_trans (hub r hr) (le_of_lt hlt)
            · rcases List.mem_singleton.mp hr with rfl
              exact le_refl _
          · rw [if_neg hlt]
            rcases List.mem_append.mp hr with hr | hr
            · exact hub r hr
            · rcases List.mem_singleton.mp hr with rfl
              omega
        · show (mergeInto e.2 raw).severity ∈
            (grpFor (processed ++ [raw]) e.1).map (fun r => r.severity)
          rw [hgr, hm.2.2, List.map_append]
          by_cases hlt : SEVERITY_ORDER_get e.2.severity <
              SEVERITY_ORDER_get raw.severity
          · rw [if_pos hlt]
            exact List.mem_append_right _ (by simp)
          · rw [if_neg hlt]
            exact List.mem_append_left _ hmem
        · show ∃ rr, (grpFor (processed ++ [raw]) e.1).head? = some rr ∧
            (mergeInto e.2 raw).is_blocking =
              severity_at_or_above rr.severity failOn
          refine ⟨r0, ?_, by rw [hm.2.1]; exact hblock⟩
          rw [hgr]
          rcases hg : grpFor processed e.1 with _ | ⟨a, l⟩
          · rw [hg] at hhead; simp at hhead
          · rw [hg] at hhead
            simpa using hhead
      · rw [if_neg hek]
        have hgr : grpFor (processed ++ [raw]) e.1 = grpFor processed e.1 := by
          rw [grpFor_append, if_neg (fun hc => hek hc.symm), List.append_nil]
        rw [hgr]
        exact ⟨hk, hub, hmem, r0, hhead, hblock⟩
    · intro r hr
      rcases List.mem_append.mp hr with hr | hr
      · obtain ⟨e, he, hek⟩ := hcomp r hr
        refine ⟨_, List.mem_map_of_mem _ he, ?_⟩
        by_cases hc : e.1 = keyOf raw
        · rw [if_pos hc]
          exact hek
        · rw [if_neg hc]
          exact hek
      · have hreq : r = raw := List.mem_singleton.mp hr
        subst hreq
        obtain ⟨e, he, hek⟩ := List.any_eq_true.mp hany
        refine ⟨_, List.mem_map_of_mem _ he, ?_⟩
        have hek' : e.1 = keyOf r := of_decide_eq_true hek
        rw [if_pos hek']
        exact hek'
  · simp only [hany, if_false]
    have hnone : grpFor processed (keyOf raw) = [] := by
      rcases hg : grpFor processed (keyOf raw) with _ | ⟨a, l⟩
      · rfl
      · exfalso
        have ha : a ∈ grpFor processed (keyOf raw) := by rw [hg]; exact List.mem_cons_self a l
        have ha2 : a ∈ processed ∧ keyOf a = keyOf raw := by
          have := List.mem_filter.mp ha
          exact ⟨this.1, of_decide_eq_true this.2⟩
        obtain ⟨e, he, hek⟩ := hcomp a ha2.1
        exact hany (List.any_eq_true.mpr ⟨e, he, decide_eq_true (by rw [hek, ha2.2])⟩)
    constructor
    · intro e' he'
      rcases List.mem_append.mp he' with he | he
      · obtain ⟨hk, hub, hmem, r0, hhead, hblock⟩ := hent e' he
        have hek : ¬ (keyOf raw = e'.1) := by
          intro hc
          exact hany (List.any_eq_true.mpr ⟨e', he, decide_eq_true hc.symm⟩)
        have hgr : grpFor (processed ++ [raw]) e'.1 = grpFor processed e'.1 := by
          rw [grpFor_append, if_neg hek, List.append_nil]
        rw [hgr]
        exact ⟨hk, hub, hmem, r0, hhead, hblock⟩
      · rcases List.mem_singleton.mp he with rfl
        have hn := newFinding_fields (counter + 1) raw failOn
        have hgr : grpFor (processed ++ [raw]) (keyOf raw) = [raw] := by
          rw [grpFor_append, if_pos rfl, hnone, List.nil_append]
        refine ⟨hn.1, ?_, ?_, raw, ?_, ?_⟩
        · intro r hr
          rw [hgr] at hr
          rcases List.mem_singleton.mp hr with rfl
          rw [hn.2.1]
        · rw [hgr, hn.2.1]; simp
        · rw [hgr]; rfl
        · rw [hn.2.2]
    · intro r hr
      rcases List.mem_append.mp hr with hr | hr
      · obtain ⟨e, he, hek⟩ := hcomp r hr
        exact ⟨e, List.mem_append_left _ he, hek⟩
      · rcases List.mem_singleton.mp hr with rfl
        exact ⟨_, List.mem_append_right _ (List.mem_singleton_self _), rfl⟩

/-- The `deduplicate` loop preserves the invariant over any tail. -/
theorem dedupGo_inv (failOn : String) :
    ∀ (raws : List RawFinding) (merged : Merged) (counter : Nat)
      (processed : List RawFinding),
      DedupInv failOn processed merged →
      DedupInv failOn (processed ++ raws) (dedupGo failOn raws merged counter) := by
  intro raws
  induction raws with
  | nil => intro merged counter processed h; simpa [dedupGo]
  | cons raw rest ih =>
    intro merged counter processed h
    have hstep := dedupInv_step failOn processed merged raw counter h
    by_cases hany : merged.any (fun e => e.1 = keyOf raw) = true
    · have h2 := ih _ counter (processed ++ [raw]) (by rwa [if_pos hany] at hstep)
      rw [List.append_assoc] at h2
      simpa [dedupGo, hany] using h2
    · have h2 := ih _ (counter + 1) (processed ++ [raw])
        (by rwa [if_neg hany] at hstep)
      rw [List.append_assoc] at h2
      simpa [dedupGo, hany] using h2

/-- Invariant instance for a full `deduplicate` run. -/
theorem deduplicate_inv (raws : List RawFinding) (failOn : String) :
    DedupInv failOn raws (dedupGo failOn raws [] 0) := by
  have := dedupGo_inv failOn raws [] 0 [] (by constructor <;> simp)
  simpa using this

/-- Every output finding of `deduplicate` satisfies the invariant
conditions for its own key. -/
theorem deduplicate_spec (raws : List RawFinding) (failOn : String)
    (f : Finding) (hf : f ∈ deduplicate raws failOn) :
    (∀ r ∈ grpFor raws (fkey f),
      SEVERITY_ORDER_get r.severity ≤ SEVERITY_ORDER_get f.severity) ∧
    f.severity ∈ (grpFor raws (fkey f)).map (fun r => r.severity) ∧
    (∃ r0, (grpFor raws (fkey f)).head? = some r0 ∧
      f.is_blocking = severity_at_or_above r0.severity failOn) := by
  obtain ⟨e, he, rfl⟩ := List.mem_map.mp hf
  obtain ⟨hk, hub, hmem, r0, hhead, hblock⟩ := (deduplicate_inv raws failOn).1 e he
  rw [hk]
  exact ⟨hub, hmem, r0, hhead, hblock⟩

/-- Every raw finding's key appears among the output findings. -/
theorem deduplicate_complete (raws : List RawFinding) (failOn : String)
    (r : RawFinding) (hr : r ∈ raws) :
    ∃ f ∈ deduplicate raws failOn, fkey f = keyOf r := by
  obtain ⟨e, he, hek⟩ := (deduplicate_inv raws failOn).2 r hr
  have hk := ((deduplicate_inv raws failOn).1 e he).1
  exact ⟨e.2, List.mem_map_of_mem _ he, by rw [hk, hek]⟩

/-- Every output finding's key comes from some raw finding. -/
theorem deduplicate_sound (raws : List RawFinding) (failOn : String)
    (f : Finding) (hf : f ∈ deduplicate raws failOn) :
    ∃ r ∈ raws, keyOf r = fkey f := by
  obtain ⟨hub, hmem, r0, hhead, hblock⟩ := deduplicate_spec raws failOn f hf
  have hr0 : r0 ∈ grpFor raws (fkey f) :=
    List.mem_of_mem_head? (Option.mem_def.mpr hhead)
  have hmf := List.mem_filter.mp hr0
  exact ⟨r0, hmf.1, of_decide_eq_true hmf.2⟩

/-! ## Claim C2 -/

/-- C2, corrected: in `deduplicate`, each output finding's severity is the
ordinal maximum of (and occurs among) the severities of the raw findings
sharing its `(rule_id, file, line_no)` key, but `is_blocking` is computed
once, from the FIRST raw finding of the key group (`severity ≥ fail_on` at
creation time) and is not recomputed when a later merge lifts the
severity; the `ScanResult.blocked` flag holds iff some finding is
blocking. -/
theorem C2_dedup_severity_and_blocking :
    (∀ (raws : List RawFinding) (failOn : String) (f : Finding),
      f ∈ deduplicate raws failOn →
      (∀ r ∈ grpFor raws (fkey f),
        SEVERITY_ORDER_get r.severity ≤ SEVERITY_ORDER_get f.severity) ∧
      f.severity ∈ (grpFor raws (fkey f)).map (fun r => r.severity) ∧
      (∃ r0, (grpFor raws (fkey f)).head? = some r0 ∧
        f.is_blocking = severity_at_or_above r0.severity failOn)) ∧
    (∀ cfg reg gi em diff res, scanE cfg reg gi em diff = .ok res →
      res.blocked = res.findings.any (fun f => f.is_blocking)) := by
  constructor
  · exact deduplicate_spec
  · intro cfg reg gi em diff res h
    have h2 : (match runEvents cfg reg gi (buildChecker (parseDiff diff)) em
        (parseDiff diff) initES with
      | Except.error e =>
        (Except.error ⟨scrubMessage e.2.rawFindings.length⟩ :
          Except ScanErr ScanResult)
      | Except.ok st => Except.ok (mkScanResult cfg st)) = Except.ok res := h
    cases hrun : runEvents cfg reg gi (buildChecker (parseDiff diff)) em
        (parseDiff diff) initES with
    | error e =>
      rw [hrun] at h2
      exact absurd h2 (by simp)
    | ok st =>
      rw [hrun] at h2
      have hres : res = mkScanResult cfg st := by
        injection h2 with h3
        exact h3.symm
      subst hres
      rfl

/-- C2, counterexample to the claim as stated: for the raw findings
`[exRawMedium, exRawHigh]` (same key, severities medium then high) with
`fail_on = "high"`, the merged finding has final severity `high` (at or
above the gate) but `is_blocking = false`, because the flag was computed
from the first (medium) occurrence. -/
theorem C2_counterexample :
    ¬ (∀ f ∈ deduplicate [exRawMedium, exRawHigh] "high",
        (f.is_blocking = true ↔ severity_at_or_above f.severity "high" = true)) := by
  decide

/-- C2 witness: the amended theorem applied to the concrete merged
finding of `[exRawMedium, exRawHigh]`. -/
theorem C2_witness :
    (∀ r ∈ grpFor [exRawMedium, exRawHigh] (fkey exMergedF),
      SEVERITY_ORDER_get r.severity ≤ SEVERITY_ORDER_get exMergedF.severity) ∧
    exMergedF.severity ∈
      (grpFor [exRawMedium, exRawHigh] (fkey exMergedF)).map
        (fun r => r.severity) ∧
    (∃ r0, (grpFor [exRawMedium, exRawHigh] (fkey exMergedF)).head? = some r0 ∧
      exMergedF.is_blocking = severity_at_or_above r0.severity "high") :=
  C2_dedup_severity_and_blocking.1 [exRawMedium, exRawHigh] "high" exMergedF
    (by decide)

/-! ## Suppression-index lemmas -/

/-- One iteration of `register_lines` equals one `regStep` of the explicit
thread. -/
theorem registerGo_cons (x : Int × String) (rest : List (Int × String))
    (m : Int → Option SupEntry) (p : Option SupEntry) (w : Bool) :
    registerGo (x :: rest) m p w =
      registerGo rest ((regStep (m, p, w) x).1) ((regStep (m, p, w) x).2.1)
        ((regStep (m, p, w) x).2.2) := by
  rcases x with ⟨n, c⟩
  rcases hpr : parse_inline_suppression c with ⟨b, ids⟩
  cases b
  · cases p with
    | none => simp [registerGo, regStep, hpr]
    | some e => cases w <;> simp [registerGo, regStep, hpr]
  · cases hc : is_pure_comment c <;> simp [registerGo, regStep, hpr, hc]

/-- `register_lines` is the first component of the folded thread. -/
theorem registerGo_thread :
    ∀ (lines : List (Int × String)) (m : Int → Option SupEntry)
      (p : Option SupEntry) (w : Bool),
      registerGo lines m p w = (regThread lines (m, p, w)).1 := by
  intro lines
  induction lines with
  | nil => intro m p w; rfl
  | cons x rest ih =>
    intro m p w
    rw [registerGo_cons, ih]
    rfl

/-- `regStep` changes the map only at the line number it processes. -/
theorem regStep_map (s : (Int → Option SupEntry) × Option SupEntry × Bool)
    (lc : Int × String) (j : Int) (h : j ≠ lc.1) :
    (regStep s lc).1 j = s.1 j := by
  rcases lc with ⟨n, c⟩
  rcases s with ⟨m, p, w⟩
  rcases hpr : parse_inline_suppression c with ⟨b, ids⟩
  have hn : j ≠ n := h
  cases b
  · cases p with
    | none => simp [regStep, hpr]
    | some e => cases w <;> simp [regStep, hpr, mapUpdate, hn]
  · cases hc : is_pure_comment c <;> simp [regStep, hpr, hc, mapUpdate, hn]

/-- The thread leaves untouched every line number that does not occur in
the processed list. -/
theorem regThread_untouched :
    ∀ (lines : List (Int × String))
      (s : (Int → Option SupEntry) × Option SupEntry × Bool) (j : Int),
      j ∉ lines.map Prod.fst → (regThread lines s).1 j = s.1 j := by
  intro lines
  induction lines with
  | nil => intro s j _; rfl
  | cons x rest ih =>
    intro s j hj
    simp only [List.map_cons, List.mem_cons, not_or] at hj
    show (regThread rest (regStep s x)).1 j = s.1 j
    rw [ih (regStep s x) j hj.2, regStep_map s x j hj.1]

/-- `register_lines` over a concatenation: run the thread over the first
part, then continue. -/
theorem registerGo_append :
    ∀ (a b : List (Int × String)) (m : Int → Option SupEntry)
      (p : Option SupEntry) (w : Bool),
      registerGo (a ++ b) m p w =
        registerGo b ((regThread a (m, p, w)).1) ((regThread a (m, p, w)).2.1)
          ((regThread a (m, p, w)).2.2) := by
  intro a
  induction a with
  | nil => intro b m p w; rfl
  | cons x rest ih =>
    intro b m p w
    rw [List.cons_append, registerGo_cons, ih]
    rfl

/-! ## Claim C9 -/

/-- C9, corrected: a pure-comment suppression marker on one added line
registers its suppression for that line and, when the immediately
following entry of the same file's added-line list does not itself carry a
marker, for that entry; it never reaches any later entry (the entry after
the consumer gets nothing).  If the following entry carries its own
marker, that marker wins instead (see the counterexample). -/
theorem C9_nextline_suppression :
    (∀ (pre suf : List (Int × String)) (n m : Int) (c d : String)
       (ids : Option (List String)),
      parse_inline_suppression c = (true, ids) →
      is_pure_comment c = true →
      (parse_inline_suppression d).1 = false →
      n ∉ suf.map Prod.fst →
      m ∉ suf.map Prod.fst →
      registerLines (pre ++ (n, c) :: (m, d) :: suf) n = some (true, ids) ∧
      registerLines (pre ++ (n, c) :: (m, d) :: suf) m = some (true, ids)) ∧
    (∀ (pre suf : List (Int × String)) (n m k : Int) (c d e : String)
       (ids : Option (List String)),
      parse_inline_suppression c = (true, ids) →
      is_pure_comment c = true →
      (parse_inline_suppression d).1 = false →
      (parse_inline_suppression e).1 = false →
      k ∉ pre.map Prod.fst → k ≠ n → k ≠ m → k ∉ suf.map Prod.fst →
      registerLines (pre ++ (n, c) :: (m, d) :: (k, e) :: suf) k = none) := by
  constructor
  · intro pre suf n m c d ids hc hpc hd hn hm
    rcases hd0 : parse_inline_suppression d with ⟨bd, idsd⟩
    rw [hd0] at hd
    subst hd
    unfold registerLines
    rw [registerGo_append]
    have hstep : ∀ (M : Int → Option SupEntry) (P : Option SupEntry) (W : Bool),
        registerGo ((n, c) :: (m, d) :: suf) M P W =
          registerGo suf (mapUpdate (mapUpdate M n (true, ids)) m (true, ids))
            none false := by
      intro M P W
      simp [registerGo, hc, hpc, hd0]
    rw [hstep, registerGo_thread]
    constructor
    · rw [regThread_untouched _ _ _ hn]
      by_cases hnm : n = m
      · simp [mapUpdate, hnm]
      · simp [mapUpdate, hnm]
    · rw [regThread_untouched _ _ _ hm]
      simp [mapUpdate]
  · intro pre suf n m k c d e ids hc hpc hd he hkpre hkn hkm hksuf
    rcases hd0 : parse_inline_suppression d with ⟨bd, idsd⟩
    rw [hd0] at hd
    subst hd
    rcases he0 : parse_inline_suppression e with ⟨be, idse⟩
    rw [he0] at he
    subst he
    unfold registerLines
    rw [registerGo_append]
    have hstep : ∀ (M : Int → Option SupEntry) (P : Option SupEntry) (W : Bool),
        registerGo ((n, c) :: (m, d) :: (k, e) :: suf) M P W =
          registerGo suf (mapUpdate (mapUpdate M n (true, ids)) m (true, ids))
            none false := by
      intro M P W
      simp [registerGo, hc, hpc, hd0, he0]
    rw [hstep, registerGo_thread]
    rw [regThread_untouched _ _ _ hksuf]
    simp only [mapUpdate, if_neg hkm, if_neg hkn]
    rw [regThread_untouched _ _ _ hkpre]

/-- C9, counterexample to the claim as stated: line 1 (`# nosec`) is a
pure-comment suppress-all marker, yet querying rule `BAR` on the next
entry (line 2, which carries its own rule-scoped marker `[FOO]`) is NOT
suppressed: the next entry's own marker overwrites the propagated one. -/
theorem C9_counterexample :
    parse_inline_suppression "# nosec" = (true, none) ∧
    is_pure_comment "# nosec" = true ∧
    checkerIsSuppressed
      ⟨fun f => if f = "g" then
        some (registerLines [(1, "# nosec"), (2, "#gitsafe-ignore[FOO]")])
        else none⟩ "g" 2 "BAR" = none := by
  decide

/-- C9 witness: the amended theorem at the concrete two-line list
`[(1, "# nosec"), (2, "x = 1")]` — the suppression applies to line 1 and
to the following entry at line 2. -/
theorem C9_witness :
    registerLines [(1, "# nosec"), (2, "x = 1")] 1 = some (true, none) ∧
    registerLines [(1, "# nosec"), (2, "x = 1")] 2 = some (true, none) :=
  C9_nextline_suppression.1 [] [] 1 2 "# nosec" "x = 1" none
    (by decide) (by decide) (by decide) (by decide) (by decide)

/-! ## Parser lemmas -/

/-- A prefix test fails when the heads differ. -/
theorem isPrefixOf_false_of_head (p l : List Char) (cp cl : Char)
    (hp : p.head? = some cp) (hl : l.head? = some cl) (hne : cp ≠ cl) :
    p.isPrefixOf l = false := by
  cases p with
  | nil => simp at hp
  | cons a as =>
    cases l with
    | nil => simp at hl
    | cons b bs =>
      have ha : a = cp := by injection hp
      have hb : b = cl := by injection hl
      subst ha
      subst hb
      simp [List.isPrefixOf, beq_eq_false_iff_ne.mpr hne]

/-- If `strStarts x p` holds and `p` starts with `ch`, so does `x`. -/
theorem head_of_strStarts (x p : String) (ch : Char)
    (hp : p.data.head? = some ch) (h : strStarts x p = true) :
    x.data.head? = some ch := by
  unfold strStarts at h
  cases hpd : p.data with
  | nil => rw [hpd] at hp; simp at hp
  | cons a as =>
    rw [hpd] at hp h
    have ha : a = ch := by injection hp
    cases hxd : x.data with
    | nil => rw [hxd] at h; simp [List.isPrefixOf] at h
    | cons b bs =>
      rw [hxd] at h
      simp only [List.isPrefixOf, Bool.and_eq_true, beq_iff_eq] at h
      simp only [List.head?_cons]
      have hb : b = ch := by rw [← h.1]; exact ha
      rw [hb]

/-- `diff --git` recognition fails off `d`-headed lines. -/
theorem diffHeader_none_of_head (x : String) (ch : Char)
    (hh : x.data.head? = some ch) (hne : ch ≠ 'd') : diffHeader? x = none := by
  unfold diffHeader?
  rw [isPrefixOf_false_of_head ("diff --git a/".data) x.data 'd' ch (by rfl) hh
    (fun hc => hne hc.symm)]
  rfl

/-- Hunk-header recognition fails off `@`-headed lines. -/
theorem hunkHeader_none_of_head (x : String) (ch : Char)
    (hh : x.data.head? = some ch) (hne : ch ≠ '@') : hunkHeader? x = none := by
  unfold hunkHeader?
  rw [isPrefixOf_false_of_head ("@@ -".data) x.data '@' ch (by rfl) hh
    (fun hc => hne hc.symm)]
  rfl

/-- `--- ` file-header recognition fails off `-`-headed lines. -/
theorem fileHeaderOld_false_of_head (x : String) (ch : Char)
    (hh : x.data.head? = some ch) (hne : ch ≠ '-') :
    isFileHeaderOld x = false := by
  unfold isFileHeaderOld strStarts
  rw [isPrefixOf_false_of_head ("--- a/".data) x.data '-' ch (by rfl) hh
    (fun hc => hne hc.symm),
    isPrefixOf_false_of_head ("--- /dev/null".data) x.data '-' ch (by rfl) hh
    (fun hc => hne hc.symm)]
  rfl

/-- `+++ ` file-header recognition fails off `+`-headed lines. -/
theorem fileHeaderNew_false_of_head (x : String) (ch : Char)
    (hh : x.data.head? = some ch) (hne : ch ≠ '+') :
    isFileHeaderNew x = false := by
  unfold isFileHeaderNew strStarts
  rw [isPrefixOf_false_of_head ("+++ b/".data) x.data '+' ch (by rfl) hh
    (fun hc => hne hc.symm),
    isPrefixOf_false_of_head ("+++ /dev/null".data) x.data '+' ch (by rfl) hh
    (fun hc => hne hc.symm)]
  rfl

/-- The `\ No newline` marker test fails off `\`-headed lines. -/
theorem noNewline_false_of_head (x : String) (ch : Char)
    (hh : x.data.head? = some ch) (hne : ch ≠ '\\') :
    isNoNewline x = false := by
  unfold isNoNewline
  have hx : x ≠ "\\ No newline at end of file" := by
    intro heq
    rw [heq] at hh
    have : ch = '\\' := by injection hh with h2; exact h2.symm
    exact hne this
  simp [hx]

/-- `strStarts x p = false` when the heads differ. -/
theorem strStarts_false_of_head (x p : String) (chx chp : Char)
    (hx : x.data.head? = some chx) (hp : p.data.head? = some chp)
    (hne : chp ≠ chx) : strStarts x p = false := by
  unfold strStarts
  exact isPrefixOf_false_of_head _ _ chp chx hp hx hne

/-- Submodule-pointer recognition fails off space-headed lines. -/
theorem isSubproject_false_of_space (x : String)
    (hh : x.data.head? = some ' ') : isSubproject x = false := by
  unfold isSubproject
  rw [strStarts_false_of_head x "+" ' ' '+' hh rfl (by decide),
    strStarts_false_of_head x "-" ' ' '-' hh rfl (by decide)]
  have hpre := isPrefixOf_false_of_head ("Subproject commit ".data) x.data
    'S' ' ' (by rfl) hh (by decide)
  simp [hpre]

/-- The sub-header sweep consumes a prefix: the remaining lines form a
sublist (in fact a suffix) of the input. -/
theorem subHeaders_sublist :
    ∀ (ls : List String) (f : SubFlags), ((subHeaders ls f).2).Sublist ls := by
  intro ls
  induction ls with
  | nil => intro f; simp [subHeaders]
  | cons l rest ih =>
    intro f
    unfold subHeaders
    repeat' split
    all_goals first
      | exact (ih _).cons _
      | exact List.Sublist.refl _

/-- Fuel beyond the line count is irrelevant: the main loop consumes at
least one line per iteration, so it terminates within `lines.length`
iterations. -/
theorem parseAux_fuel :
    ∀ (f1 f2 : Nat) (lines : List String) (st : PSt),
      lines.length < f1 → lines.length < f2 →
      parseAux f1 lines st = parseAux f2 lines st := by
  intro f1
  induction f1 with
  | zero => intro f2 lines st h1 _; omega
  | succ a ih =>
    intro f2 lines st h1 h2
    cases f2 with
    | zero => omega
    | succ b =>
      cases lines with
      | nil => rfl
      | cons l rest =>
        have hr1 : rest.length < a := by
          simp only [List.length_cons] at h1; omega
        have hr2 : rest.length < b := by
          simp only [List.length_cons] at h2; omega
        cases hdh : diffHeader? l with
        | some oc =>
          obtain ⟨old, cur⟩ := oc
          simp only [parseAux, hdh]
          have hlen : ((subHeaders rest
              ⟨old, cur, false, false, false, false⟩).2).length ≤ rest.length :=
            (subHeaders_sublist _ _).length_le
          congr 1
          exact ih b _ _ (by omega) (by omega)
        | none =>
          simp only [parseAux, hdh]
          repeat' split
          all_goals first
            | rfl
            | exact ih b rest _ hr1 hr2
            | (congr 1; exact ih b rest _ hr1 hr2)

/-- Buffered lines are always flushed: every buffer item appears in the
output. -/
theorem parseAux_buffer_mem :
    ∀ (fuel : Nat) (lines : List String) (st : PSt) (i : DiffItem),
      i ∈ st.buffer → i ∈ parseAux fuel lines st := by
  intro fuel
  induction fuel with
  | zero => intro lines st i hi; exact hi
  | succ a ih =>
    intro lines st i hi
    cases lines with
    | nil => exact hi
    | cons l rest =>
      cases hdh : diffHeader? l with
      | some oc =>
        obtain ⟨old, cur⟩ := oc
        simp only [parseAux, hdh]
        exact List.mem_append_left _ (List.mem_append_left _ hi)
      | none =>
        simp only [parseAux, hdh]
        repeat' split
        all_goals first
          | exact List.mem_append_left _ hi
          | exact ih _ _ _ hi
          | exact ih _ _ _ (List.mem_append_left _ hi)

/-- A recognised hunk header carries a non-negative `new_start` (it is the
value of a digit run). -/
theorem hunkHeader_nonneg (l : String) (ns : Int)
    (h : hunkHeader? l = some ns) : 0 ≤ ns := by
  simp only [hunkHeader?] at h
  repeat' split at h
  all_goals first
    | (injection h with h2; rw [← h2]; exact Int.ofNat_nonneg _)
    | exact absurd h (by simp)

/-- The header cluster emits no `DiffLine`. -/
theorem headerEmit_no_line (fl : SubFlags) (rest : List String) (st : PSt)
    (f : String) (n : Int) (c : String) (lt : LineType) :
    DiffItem.line f n c lt ∉ (headerEmit fl rest st).1 := by
  unfold headerEmit
  repeat' split
  all_goals simp

/-- The continuation state of the header cluster: buffer cleared,
line counter preserved. -/
theorem headerEmit_state (fl : SubFlags) (rest : List String) (st : PSt) :
    (headerEmit fl rest st).2.lineNo = st.lineNo ∧
    (headerEmit fl rest st).2.buffer = [] := by
  unfold headerEmit
  repeat' split
  all_goals exact ⟨rfl, rfl⟩

/-- Every emitted `DiffLine` has a non-negative line number, provided the
incoming counter and buffer do. -/
theorem parseAux_lineNo_nonneg :
    ∀ (fuel : Nat) (lines : List String) (st : PSt),
      0 ≤ st.lineNo →
      (∀ (f : String) (n : Int) (c : String) (lt : LineType),
        DiffItem.line f n c lt ∈ st.buffer → 0 ≤ n) →
      ∀ (f : String) (n : Int) (c : String) (lt : LineType),
        DiffItem.line f n c lt ∈ parseAux fuel lines st → 0 ≤ n := by
  intro fuel
  induction fuel with
  | zero => intro lines st _ hbuf f n c lt hm; exact hbuf f n c lt hm
  | succ a ih =>
    intro lines st hln hbuf f n c lt hm
    cases lines with
    | nil => exact hbuf f n c lt hm
    | cons l rest =>
      cases hdh : diffHeader? l with
      | some oc =>
        obtain ⟨old, cur⟩ := oc
        simp only [parseAux, hdh] at hm
        rcases List.mem_append.mp hm with hm1 | hm2
        · rcases List.mem_append.mp hm1 with hm3 | hm4
          · exact hbuf f n c lt hm3
          · exact absurd hm4 (headerEmit_no_line _ _ _ f n c lt)
        · have hst := headerEmit_state
            (subHeaders rest ⟨old, cur, false, false, false, false⟩).1
            (subHeaders rest ⟨old, cur, false, false, false, false⟩).2 st
          exact ih _ _ (by rw [hst.1]; exact hln)
            (by rw [hst.2]; intro f2 n2 c2 lt2 hm5; simp at hm5) f n c lt hm2
      | none =>
        by_cases hfh : (isFileHeaderOld l || isFileHeaderNew l) = true
        · simp only [parseAux, hdh, hfh, if_true] at hm
          exact ih rest st hln hbuf f n c lt hm
        · cases hhk : hunkHeader? l with
          | some ns =>
            simp only [parseAux, hdh, hfh, hhk, if_false] at hm
            rcases List.mem_append.mp hm with hm1 | hm2
            · exact hbuf f n c lt hm1
            · exact ih rest _ (hunkHeader_nonneg l ns hhk)
                (by intro f2 n2 c2 lt2 hm5; simp at hm5) f n c lt hm2
          | none =>
            by_cases hsp : isSubproject l = true
            · simp only [parseAux, hdh, hfh, hhk, Bool.false_eq_true, if_false, hsp, if_false, if_true] at hm
              exact ih rest st hln hbuf f n c lt hm
            · by_cases hnn : isNoNewline l = true
              · simp only [parseAux, hdh, hfh, hhk, Bool.false_eq_true, if_false, hsp, hnn, if_false,
                  if_true] at hm
                exact ih rest st hln hbuf f n c lt hm
              · cases hcf : st.currentFile with
                | none =>
                  simp only [parseAux, hdh, hfh, hhk, Bool.false_eq_true, if_false, hsp, hnn, hcf,
                    if_false] at hm
                  exact ih rest st hln hbuf f n c lt hm
                | some file =>
                  by_cases hplus : strStarts l "+" = true
                  · simp only [parseAux, hdh, hfh, hhk, Bool.false_eq_true, if_false, hsp, hnn, hcf, hplus,
                      if_false, if_true] at hm
                    refine ih rest _ (by simp; omega) ?_ f n c lt hm
                    intro f2 n2 c2 lt2 hm5
                    simp only [List.mem_append, List.mem_singleton] at hm5
                    rcases hm5 with hm5 | hm5
                    · exact hbuf f2 n2 c2 lt2 hm5
                    · injection hm5 with e1 e2 e3 e4
                      rw [e2]
                      exact hln
                  · by_cases hminus : strStarts l "-" = true
                    · simp only [parseAux, hdh, hfh, hhk, Bool.false_eq_true, if_false, hsp, hnn, hcf,
                        hplus, hminus, if_false, if_true] at hm
                      exact ih rest st hln hbuf f n c lt hm
                    · by_cases hspace : strStarts l " " = true
                      · simp only [parseAux, hdh, hfh, hhk, Bool.false_eq_true, if_false, hsp, hnn, hcf,
                          hplus, hminus, hspace, if_false, if_true] at hm
                        refine ih rest _ (by simp; omega) ?_ f n c lt hm
                        intro f2 n2 c2 lt2 hm5
                        exact hbuf f2 n2 c2 lt2 hm5
                      · simp only [parseAux, hdh, hfh, hhk, Bool.false_eq_true, if_false, hsp, hnn, hcf,
                          hplus, hminus, hspace, if_false] at hm
                        exact ih rest st hln hbuf f n c lt hm

/-- Every emitted `DiffLine` either was already buffered or stems from a
`+`-headed input line, with content equal to that line minus the `+` and
with every leading U+FEFF removed (`strip_bom` is `lstrip`). -/
theorem parseAux_content_src :
    ∀ (fuel : Nat) (lines : List String) (st : PSt) (f : String) (n : Int)
      (c : String) (lt : LineType),
      DiffItem.line f n c lt ∈ parseAux fuel lines st →
      DiffItem.line f n c lt ∈ st.buffer ∨
        ∃ l ∈ lines, strStarts l "+" = true ∧ c = strip_bom (strDrop l 1) := by
  intro fuel
  induction fuel with
  | zero => intro lines st f n c lt hm; exact Or.inl hm
  | succ a ih =>
    intro lines st f n c lt hm
    cases lines with
    | nil => exact Or.inl hm
    | cons l rest =>
      have lift : DiffItem.line f n c lt ∈ st.buffer ∨
          (∃ x ∈ rest, strStarts x "+" = true ∧ c = strip_bom (strDrop x 1)) →
          DiffItem.line f n c lt ∈ st.buffer ∨
          ∃ x ∈ l :: rest, strStarts x "+" = true ∧
            c = strip_bom (strDrop x 1) := by
        intro h
        rcases h with h | ⟨x, hx, h2⟩
        · exact Or.inl h
        · exact Or.inr ⟨x, List.mem_cons_of_mem _ hx, h2⟩
      cases hdh : diffHeader? l with
      | some oc =>
        obtain ⟨old, cur⟩ := oc
        simp only [parseAux, hdh] at hm
        rcases List.mem_append.mp hm with hm1 | hm2
        · rcases List.mem_append.mp hm1 with hm3 | hm4
          · exact Or.inl hm3
          · exact absurd hm4 (headerEmit_no_line _ _ _ f n c lt)
        · have hst := headerEmit_state
            (subHeaders rest ⟨old, cur, false, false, false, false⟩).1
            (subHeaders rest ⟨old, cur, false, false, false, false⟩).2 st
          rcases ih _ _ f n c lt hm2 with hm3 | ⟨x, hx, h2⟩
          · rw [hst.2] at hm3
            simp at hm3
          · refine Or.inr ⟨x, List.mem_cons_of_mem _ ?_, h2⟩
            exact (subHeaders_sublist rest
              ⟨old, cur, false, false, false, false⟩).subset hx
      | none =>
        by_cases hfh : (isFileHeaderOld l || isFileHeaderNew l) = true
        · simp only [parseAux, hdh, hfh, if_true] at hm
          exact lift (ih rest st f n c lt hm)
        · cases hhk : hunkHeader? l with
          | some ns =>
            simp only [parseAux, hdh, hfh, hhk, Bool.false_eq_true,
              if_false] at hm
            rcases List.mem_append.mp hm with hm1 | hm2
            · exact Or.inl hm1
            · rcases ih rest _ f n c lt hm2 with hm3 | ⟨x, hx, h2⟩
              · simp at hm3
              · exact Or.inr ⟨x, List.mem_cons_of_mem _ hx, h2⟩
          | none =>
            by_cases hsp : isSubproject l = true
            · simp only [parseAux, hdh, hfh, hhk, Bool.false_eq_true,
                if_false, hsp, if_true] at hm
              exact lift (ih rest st f n c lt hm)
            · by_cases hnn : isNoNewline l = true
              · simp only [parseAux, hdh, hfh, hhk, Bool.false_eq_true,
                  if_false, hsp, hnn, if_true] at hm
                exact lift (ih rest st f n c lt hm)
              · cases hcf : st.currentFile with
                | none =>
                  simp only [parseAux, hdh, hfh, hhk, Bool.false_eq_true,
                    if_false, hsp, hnn, hcf] at hm
                  exact lift (ih rest st f n c lt hm)
                | some file =>
                  by_cases hplus : strStarts l "+" = true
                  · simp only [parseAux, hdh, hfh, hhk, Bool.false_eq_true,
                      if_false, hsp, hnn, hcf, hplus, if_true] at hm
                    rcases ih rest _ f n c lt hm with hm3 | ⟨x, hx, h2⟩
                    · simp only [List.mem_append, List.mem_singleton] at hm3
                      rcases hm3 with hm4 | hm4
                      · exact Or.inl hm4
                      · injection hm4 with e1 e2 e3 e4
                        exact Or.inr ⟨l, List.mem_cons_self _ _, hplus, e3⟩
                    · exact Or.inr ⟨x, List.mem_cons_of_mem _ hx, h2⟩
                  · by_cases hminus : strStarts l "-" = true
                    · simp only [parseAux, hdh, hfh, hhk, Bool.false_eq_true,
                        if_false, hsp, hnn, hcf, hplus, hminus, if_true] at hm
                      exact lift (ih rest st f n c lt hm)
                    · by_cases hspace : strStarts l " " = true
                      · simp only [parseAux, hdh, hfh, hhk, Bool.false_eq_true,
                          if_false, hsp, hnn, hcf, hplus, hminus, hspace,
                          if_true] at hm
                        rcases ih rest _ f n c lt hm with hm3 | ⟨x, hx, h2⟩
                        · exact Or.inl hm3
                        · exact Or.inr ⟨x, List.mem_cons_of_mem _ hx, h2⟩
                      · simp only [parseAux, hdh, hfh, hhk, Bool.false_eq_true,
                          if_false, hsp, hnn, hcf, hplus, hminus,
                          hspace] at hm
                        exact lift (ih rest st f n c lt hm)

/-! ## Claim C5 -/

/-- C5, corrected: the parser is total — running the embedded main loop
with any fuel beyond the line count gives the same result, i.e. the
Python `while` loop terminates within `lines.length` iterations for every
input — and every emitted `AddedLine` has `line_no ≥ 0`.  The claim's
bound `line_no ≥ 1` fails: a `+` line that precedes any hunk header is
emitted with the initial counter value 0 (see the counterexample). -/
theorem C5_parser_total_and_nonneg :
    (∀ (input : String) (extra : Nat),
      parseAux ((pySplitLines input).length + 1 + extra) (pySplitLines input)
        initPSt = parseDiff input) ∧
    (∀ (input : String) (f : String) (n : Int) (c : String) (lt : LineType),
      DiffItem.line f n c lt ∈ parseDiff input → 0 ≤ n) := by
  constructor
  · intro input extra
    exact parseAux_fuel ((pySplitLines input).length + 1 + extra)
      ((pySplitLines input).length + 1) (pySplitLines input) initPSt
      (by omega) (by omega)
  · intro input f n c lt hm
    exact parseAux_lineNo_nonneg ((pySplitLines input).length + 1)
      (pySplitLines input) initPSt (by decide)
      (by intro f2 n2 c2 lt2 h2; simp [initPSt] at h2) f n c lt hm

/-- C5, counterexample to the claim as stated: on the input
`diff --git a/f b/f\n+x` (a `+` line before any hunk header) the parser
emits an `AddedLine` with `line_no = 0 < 1`. -/
theorem C5_counterexample :
    DiffItem.line "f" 0 "x" LineType.added ∈
      parseDiff "diff --git a/f b/f\n+x" ∧ ¬ (1 ≤ (0 : Int)) := by
  decide

/-- C5 witness: the amended theorem applied at a concrete diff and its
emitted line. -/
theorem C5_witness :
    parseAux ((pySplitLines exDPgood).length + 1 + 7) (pySplitLines exDPgood)
      initPSt = parseDiff exDPgood ∧ (0 : Int) ≤ 1 :=
  ⟨C5_parser_total_and_nonneg.1 exDPgood 7,
   C5_parser_total_and_nonneg.2 exDPgood "P" 1 "AKIA" LineType.added
     (by decide)⟩

/-! ## Claim C6 -/

/-- C6, corrected: every emitted `AddedLine`'s content equals some
`+`-headed input line minus the leading `+` with ALL leading U+FEFF
characters removed (`_strip_bom` uses `lstrip`, which strips every
leading BOM, not just one). -/
theorem C6_bom_strip :
    ∀ (input : String) (f : String) (n : Int) (c : String) (lt : LineType),
      DiffItem.line f n c lt ∈ parseDiff input →
      ∃ l ∈ pySplitLines input, strStarts l "+" = true ∧
        c = strip_bom (strDrop l 1) := by
  intro input f n c lt hm
  rcases parseAux_content_src ((pySplitLines input).length + 1)
      (pySplitLines input) initPSt f n c lt hm with h | h
  · simp [initPSt] at h
  · exact h

/-- C6, counterexample to the claim as stated: the content line
`+﻿﻿ab` (two leading BOMs) is emitted as `ab`, not as the
single-BOM-stripped `﻿ab`. -/
theorem C6_counterexample :
    parseDiff exDBom =
      [DiffItem.file "f" none FileStatus.modified,
       DiffItem.line "f" 1 "ab" LineType.added] ∧
    "ab" ≠ "﻿ab" := by
  decide

/-- C6 witness: the amended theorem applied at `exDBom` and its emitted
line. -/
theorem C6_witness :
    ∃ l ∈ pySplitLines exDBom, strStarts l "+" = true ∧
      "ab" = strip_bom (strDrop l 1) :=
  C6_bom_strip exDBom "f" 1 "ab" LineType.added (by decide)

/-! ## Claim C7 -/

/-- A successful prefix check pins the head character. -/
theorem isPrefixOf_head (a : Char) (as l : List Char)
    (h : (a :: as).isPrefixOf l = true) : l.head? = some a := by
  cases l with
  | nil => simp [List.isPrefixOf] at h
  | cons b bs =>
    simp only [List.isPrefixOf, Bool.and_eq_true, beq_iff_eq] at h
    rw [List.head?_cons, h.1]

/-- A recognised hunk header starts with `@`. -/
theorem hunkHeader_head (s : String) (ns : Int)
    (h : hunkHeader? s = some ns) : s.data.head? = some '@' := by
  unfold hunkHeader? at h
  by_cases hp : ("@@ -".data).isPrefixOf s.data = true
  · rw [show "@@ -".data = '@' :: "@ -".data from rfl] at hp
    exact isPrefixOf_head '@' _ _ hp
  · rw [if_neg hp] at h
    exact absurd h (by simp)

/-- Branch guards for a `+`-headed line. -/
theorem plus_guards (x : String) (hx : strStarts x "+" = true) :
    diffHeader? x = none ∧ isFileHeaderOld x = false ∧
    hunkHeader? x = none ∧ isNoNewline x = false := by
  have hh : x.data.head? = some '+' := head_of_strStarts x "+" '+' rfl hx
  exact ⟨diffHeader_none_of_head x '+' hh (by decide),
    fileHeaderOld_false_of_head x '+' hh (by decide),
    hunkHeader_none_of_head x '+' hh (by decide),
    noNewline_false_of_head x '+' hh (by decide)⟩

/-- Branch guards for a space-headed (context) line. -/
theorem space_guards (y : String) (hy : strStarts y " " = true) :
    diffHeader? y = none ∧ isFileHeaderOld y = false ∧
    isFileHeaderNew y = false ∧ hunkHeader? y = none ∧
    isSubproject y = false ∧ isNoNewline y = false ∧
    strStarts y "+" = false ∧ strStarts y "-" = false := by
  have hh : y.data.head? = some ' ' := head_of_strStarts y " " ' ' rfl hy
  exact ⟨diffHeader_none_of_head y ' ' hh (by decide),
    fileHeaderOld_false_of_head y ' ' hh (by decide),
    fileHeaderNew_false_of_head y ' ' hh (by decide),
    hunkHeader_none_of_head y ' ' hh (by decide),
    isSubproject_false_of_space y hh,
    noNewline_false_of_head y ' ' hh (by decide),
    strStarts_false_of_head y "+" ' ' '+' hh rfl (by decide),
    strStarts_false_of_head y "-" ' ' '-' hh rfl (by decide)⟩

/-- Branch guards for a `-`-headed line. -/
theorem minus_guards (z : String) (hz : strStarts z "-" = true) :
    diffHeader? z = none ∧ isFileHeaderNew z = false ∧
    hunkHeader? z = none ∧ isNoNewline z = false ∧
    strStarts z "+" = false := by
  have hh : z.data.head? = some '-' := head_of_strStarts z "-" '-' rfl hz
  exact ⟨diffHeader_none_of_head z '-' hh (by decide),
    fileHeaderNew_false_of_head z '-' hh (by decide),
    hunkHeader_none_of_head z '-' hh (by decide),
    noNewline_false_of_head z '-' hh (by decide),
    strStarts_false_of_head z "+" '-' '+' hh rfl (by decide)⟩

/-- C7, corrected: a hunk header `@@ -a,b +c,d @@` resets the counter to
`c`; each subsequent `+` content line is emitted with the current counter
and advances it by one; context (space) lines advance it by one without
emitting; `-` lines (other than `---` file headers and submodule
pointers) leave it unchanged; consequently the first `+` content line
immediately following the hunk header is emitted with `line_no = c`.
With intervening context lines the first `+` line gets `c` plus their
count, and `+`-headed file headers (`+++`), submodule pointers and the
no-newline marker neither emit nor advance — which is where the claim as
stated fails. -/
theorem C7_line_counter :
    (∀ (fuel : Nat) (st : PSt) (s : String) (rest : List String) (ns : Int),
      hunkHeader? s = some ns →
      parseAux (fuel + 1) (s :: rest) st =
        st.buffer ++ parseAux fuel rest ⟨st.currentFile, ns, []⟩) ∧
    (∀ (fuel : Nat) (st : PSt) (file : String) (x : String)
       (rest : List String),
      st.currentFile = some file → isPlusContent x = true →
      parseAux (fuel + 1) (x :: rest) st =
        parseAux fuel rest ⟨some file, st.lineNo + 1,
          st.buffer ++ [DiffItem.line file st.lineNo
            (strip_bom (strDrop x 1)) LineType.added]⟩) ∧
    (∀ (fuel : Nat) (st : PSt) (file : String) (y : String)
       (rest : List String),
      st.currentFile = some file → strStarts y " " = true →
      parseAux (fuel + 1) (y :: rest) st =
        parseAux fuel rest ⟨some file, st.lineNo + 1, st.buffer⟩) ∧
    (∀ (fuel : Nat) (st : PSt) (z : String) (rest : List String),
      strStarts z "-" = true → isFileHeaderOld z = false →
      isSubproject z = false →
      parseAux (fuel + 1) (z :: rest) st = parseAux fuel rest st) ∧
    (∀ (fuel : Nat) (st : PSt) (file : String) (hs x : String)
       (rest : List String) (ns : Int),
      st.currentFile = some file → hunkHeader? hs = some ns →
      isPlusContent x = true →
      DiffItem.line file ns (strip_bom (strDrop x 1)) LineType.added ∈
        parseAux (fuel + 2) (hs :: x :: rest) st) := by
  have conj1 : ∀ (fuel : Nat) (st : PSt) (s : String) (rest : List String)
      (ns : Int), hunkHeader? s = some ns →
      parseAux (fuel + 1) (s :: rest) st =
        st.buffer ++ parseAux fuel rest ⟨st.currentFile, ns, []⟩ := by
    intro fuel st s rest ns h
    have hh := hunkHeader_head s ns h
    simp only [parseAux, diffHeader_none_of_head s '@' hh (by decide),
      fileHeaderOld_false_of_head s '@' hh (by decide),
      fileHeaderNew_false_of_head s '@' hh (by decide),
      Bool.or_self, Bool.false_eq_true, if_false, h]
  have conj2 : ∀ (fuel : Nat) (st : PSt) (file : String) (x : String)
      (rest : List String),
      st.currentFile = some file → isPlusContent x = true →
      parseAux (fuel + 1) (x :: rest) st =
        parseAux fuel rest ⟨some file, st.lineNo + 1,
          st.buffer ++ [DiffItem.line file st.lineNo
            (strip_bom (strDrop x 1)) LineType.added]⟩ := by
    intro fuel st file x rest hcf hx
    simp only [isPlusContent, Bool.and_eq_true, Bool.not_eq_true'] at hx
    obtain ⟨⟨hplus, hfhn⟩, hsp⟩ := hx
    have g := plus_guards x hplus
    simp only [parseAux, g.1, g.2.1, g.2.2.1, g.2.2.2, hfhn, hsp, hcf, hplus,
      Bool.or_self, Bool.false_eq_true, if_false, if_true]
  have conj3 : ∀ (fuel : Nat) (st : PSt) (file : String) (y : String)
      (rest : List String),
      st.currentFile = some file → strStarts y " " = true →
      parseAux (fuel + 1) (y :: rest) st =
        parseAux fuel rest ⟨some file, st.lineNo + 1, st.buffer⟩ := by
    intro fuel st file y rest hcf hy
    have g := space_guards y hy
    simp only [parseAux, g.1, g.2.1, g.2.2.1, g.2.2.2.1, g.2.2.2.2.1,
      g.2.2.2.2.2.1, g.2.2.2.2.2.2.1, g.2.2.2.2.2.2.2, hcf, hy,
      Bool.or_self, Bool.false_eq_true, if_false, if_true]
  have conj4 : ∀ (fuel : Nat) (st : PSt) (z : String) (rest : List String),
      strStarts z "-" = true → isFileHeaderOld z = false →
      isSubproject z = false →
      parseAux (fuel + 1) (z :: rest) st = parseAux fuel rest st := by
    intro fuel st z rest hz hfho hsp
    have g := minus_guards z hz
    cases hcf : st.currentFile with
    | none =>
      simp only [parseAux, g.1, g.2.1, g.2.2.1, g.2.2.2.1, g.2.2.2.2, hfho,
        hsp, hcf, hz, Bool.or_self, Bool.false_eq_true, if_false, if_true]
    | some file =>
      simp only [parseAux, g.1, g.2.1, g.2.2.1, g.2.2.2.1, g.2.2.2.2, hfho,
        hsp, hcf, hz, Bool.or_self, Bool.false_eq_true, if_false, if_true]
  refine ⟨conj1, conj2, conj3, conj4, ?_⟩
  intro fuel st file hs x rest ns hcf hhk hx
  rw [conj1 (fuel + 1) st hs (x :: rest) ns hhk]
  rw [conj2 fuel ⟨st.currentFile, ns, []⟩ file x rest (by rw [hcf]) hx]
  refine List.mem_append_right _ ?_
  exact parseAux_buffer_mem fuel rest _ _ (by simp)

/-- C7, counterexample to the claim as stated: after the hunk header
`@@ -1,2 +5,2 @@` a context line precedes the first `+` line, which is
therefore emitted with `line_no = 6`, not `c = 5`; the parse of `exDCtx`
contains no line numbered 5. -/
theorem C7_counterexample :
    parseDiff exDCtx =
      [DiffItem.file "f" none FileStatus.modified,
       DiffItem.line "f" 6 "y" LineType.added] ∧ (6 : Int) ≠ 5 := by
  decide

/-- C7 witness: the step equations applied at fuel 3, the initial state
with a current file, the header `@@ -1 +5 @@`, and the `+` line `+y`. -/
theorem C7_witness :
    DiffItem.line "f" 5 "y" LineType.added ∈
      parseAux 3 ["@@ -1 +5 @@", "+y"] ⟨some "f", 0, []⟩ :=
  C7_line_counter.2.2.2.2 1 ⟨some "f", 0, []⟩ "f" "@@ -1 +5 @@" "+y" [] 5
    rfl (by decide) (by decide)

/-! ## Claim C8 -/

/-- `litDigitsLit` recognition fails when the head differs. -/
theorem litDigitsLit_false_of_head (pre suf : List Char) (s : String)
    (cp ch : Char) (hp : pre.head? = some cp) (hh : s.data.head? = some ch)
    (hne : cp ≠ ch) : litDigitsLit pre suf s = false := by
  unfold litDigitsLit
  rw [isPrefixOf_false_of_head pre s.data cp ch hp hh hne]
  rfl

/-- `index` recognition fails off `i`-headed lines. -/
theorem indexLine_false_of_head (s : String) (ch : Char)
    (hh : s.data.head? = some ch) (hne : ch ≠ 'i') : isIndexLine s = false := by
  unfold isIndexLine
  rw [isPrefixOf_false_of_head ("index ".data) s.data 'i' ch (by rfl) hh
    (fun hc => hne hc.symm)]
  rfl

/-- `rename from` recognition fails off `r`-headed lines. -/
theorem renameFrom_none_of_head (s : String) (ch : Char)
    (hh : s.data.head? = some ch) (hne : ch ≠ 'r') : renameFrom? s = none := by
  unfold renameFrom?
  rw [isPrefixOf_false_of_head ("rename from ".data) s.data 'r' ch (by rfl) hh
    (fun hc => hne hc.symm)]
  rfl

/-- `rename to` recognition fails off `r`-headed lines. -/
theorem renameTo_none_of_head (s : String) (ch : Char)
    (hh : s.data.head? = some ch) (hne : ch ≠ 'r') : renameTo? s = none := by
  unfold renameTo?
  rw [isPrefixOf_false_of_head ("rename to ".data) s.data 'r' ch (by rfl) hh
    (fun hc => hne hc.symm)]
  rfl

/-- C8, corrected: when the sub-header sweep after `diff --git` has seen a
`Binary files … differ` line (third conjunct: any such line among the
sub-headers sets the flag, second conjunct: the flag is never cleared),
the parser emits exactly one `FileSkipped{binary}` for the block and no
`DiffFile`, and continues at the first non-sub-header line with
`current_file` still set to the block's path — so `+` lines placed after
the marker (which real git never produces) are still emitted and
attributed to that path, which is where the claim as stated fails. -/
theorem C8_binary_skip :
    (∀ (fuel : Nat) (st : PSt) (l : String) (rest : List String)
       (old cur : String),
      diffHeader? l = some (old, cur) →
      ((subHeaders rest ⟨old, cur, false, false, false, false⟩).1).isBinary =
        true →
      parseAux (fuel + 1) (l :: rest) st =
        st.buffer ++ DiffItem.skipped
            ((subHeaders rest ⟨old, cur, false, false, false, false⟩).1).curFile
            "binary" ::
          parseAux fuel
            (subHeaders rest ⟨old, cur, false, false, false, false⟩).2
            ⟨some ((subHeaders rest
                ⟨old, cur, false, false, false, false⟩).1).curFile,
             st.lineNo, []⟩) ∧
    (∀ (ls : List String) (f : SubFlags), f.isBinary = true →
      ((subHeaders ls f).1).isBinary = true) ∧
    (∀ (ls : List String) (f : SubFlags) (l : String), isBinaryLine l = true →
      subHeaders (l :: ls) f = subHeaders ls { f with isBinary := true }) := by
  refine ⟨?_, ?_, ?_⟩
  · intro fuel st l rest old cur hdh hbin
    simp only [parseAux, hdh, headerEmit, hbin, if_true]
    simp [List.append_assoc]
  · intro ls
    induction ls with
    | nil => intro f h; exact h
    | cons l rest ih =>
      intro f h
      unfold subHeaders
      repeat' split
      all_goals first | exact ih _ h | exact ih _ rfl | exact h
  · intro ls f l h
    have hp : ("Binary files ".data).isPrefixOf l.data = true := by
      simp only [isBinaryLine, Bool.and_eq_true] at h
      exact h.1.1.1
    have hh : l.data.head? = some 'B' := by
      rw [show "Binary files ".data = 'B' :: "inary files ".data from rfl] at hp
      exact isPrefixOf_head 'B' _ _ hp
    have hsim : isSimilarity l = false :=
      litDigitsLit_false_of_head _ _ l 's' 'B' (by rfl) hh (by decide)
    have hold : isOldMode l = false :=
      litDigitsLit_false_of_head _ _ l 'o' 'B' (by rfl) hh (by decide)
    have hnew : isNewMode l = false :=
      litDigitsLit_false_of_head _ _ l 'n' 'B' (by rfl) hh (by decide)
    have hdel : isDeletedFile l = false :=
      litDigitsLit_false_of_head _ _ l 'd' 'B' (by rfl) hh (by decide)
    have hnf : isNewFileMode l = false :=
      litDigitsLit_false_of_head _ _ l 'n' 'B' (by rfl) hh (by decide)
    have hidx : isIndexLine l = false :=
      indexLine_false_of_head l 'B' hh (by decide)
    have hrf : renameFrom? l = none :=
      renameFrom_none_of_head l 'B' hh (by decide)
    have hrt : renameTo? l = none :=
      renameTo_none_of_head l 'B' hh (by decide)
    simp only [subHeaders, hidx, hsim, hold, hnew, hdel, hnf, hrf, hrt, h,
      Bool.false_eq_true, if_false, if_true]

/-- C8, counterexample to the claim as stated: after the binary marker the
stray line `+x` is still emitted as an `AddedLine` attributed to the
binary file `f` (with line number 0), so "zero AddedLine events for that
file" fails on this input. -/
theorem C8_counterexample :
    parseDiff exDBin =
      [DiffItem.skipped "f" "binary",
       DiffItem.line "f" 0 "x" LineType.added] ∧
    DiffItem.line "f" 0 "x" LineType.added ∈ parseDiff exDBin := by
  decide

/-- C8 witness: the header equation applied at the concrete two-line
block `diff --git a/f b/f` + binary marker. -/
theorem C8_witness :
    parseAux 2 ["diff --git a/f b/f", "Binary files a/f and b/f differ"]
      initPSt =
      initPSt.buffer ++ DiffItem.skipped
          ((subHeaders ["Binary files a/f and b/f differ"]
            ⟨"f", "f", false, false, false, false⟩).1).curFile "binary" ::
        parseAux 1
          (subHeaders ["Binary files a/f and b/f differ"]
            ⟨"f", "f", false, false, false, false⟩).2
          ⟨some ((subHeaders ["Binary files a/f and b/f differ"]
              ⟨"f", "f", false, false, false, false⟩).1).curFile,
           initPSt.lineNo, []⟩ :=
  C8_binary_skip.1 1 initPSt "diff --git a/f b/f"
    ["Binary files a/f and b/f differ"] "f" "f" (by decide) (by decide)

/-! ## Claim C1 -/

/-- C1, corrected: when an internal (non-`ScanError`) exception escapes
the main pass, `scan` raises a `ScanError` whose message is exactly
`Internal scanner error after N findings. Secrets have been scrubbed from
this error.` with `N` the number of raw findings accumulated at the point
of failure; the error value carries nothing but this message (the raw
findings are dropped), and the message is a function of `N` alone — two
failures with equal counts produce the same error whatever the diffs,
configs, rules or matched values were, so no matched byte can influence
it. -/
theorem C1_scan_error_scrubbed :
    ∀ (cfg : EConfig) (reg : Registry) (gi : GitSafeIgnore)
      (em : EntropyModel) (diff : String) (msg : String) (st : EngineState),
      runEvents cfg reg gi (buildChecker (parseDiff diff)) em (parseDiff diff)
        initES = .error (msg, st) →
      scanE cfg reg gi em diff =
        .error ⟨scrubMessage st.rawFindings.length⟩ ∧
      (∀ (cfg2 : EConfig) (reg2 : Registry) (gi2 : GitSafeIgnore)
         (em2 : EntropyModel) (diff2 : String) (msg2 : String)
         (st2 : EngineState),
        runEvents cfg2 reg2 gi2 (buildChecker (parseDiff diff2)) em2
          (parseDiff diff2) initES = .error (msg2, st2) →
        st2.rawFindings.length = st.rawFindings.length →
        scanE cfg2 reg2 gi2 em2 diff2 = scanE cfg reg gi em diff) := by
  have key : ∀ (cfg : EConfig) (reg : Registry) (gi : GitSafeIgnore)
      (em : EntropyModel) (diff : String) (msg : String) (st : EngineState),
      runEvents cfg reg gi (buildChecker (parseDiff diff)) em (parseDiff diff)
        initES = .error (msg, st) →
      scanE cfg reg gi em diff =
        .error ⟨scrubMessage st.rawFindings.length⟩ := by
    intro cfg reg gi em diff msg st h
    show (match runEvents cfg reg gi (buildChecker (parseDiff diff)) em
        (parseDiff diff) initES with
      | Except.error e =>
        (Except.error ⟨scrubMessage e.2.rawFindings.length⟩ :
          Except ScanErr ScanResult)
      | Except.ok st2 => Except.ok (mkScanResult cfg st2)) =
      .error ⟨scrubMessage st.rawFindings.length⟩
    rw [h]
  intro cfg reg gi em diff msg st h
  refine ⟨key cfg reg gi em diff msg st h, ?_⟩
  intro cfg2 reg2 gi2 em2 diff2 msg2 st2 h2 hlen
  rw [key cfg2 reg2 gi2 em2 diff2 msg2 st2 h2, key cfg reg gi em diff msg st h,
    hlen]

/-- C1, counterexample to the claim as stated: on `exD1` with the raising
rule the main pass fails with zero accumulated findings (so the claim
demands the message `Internal scanner error after 0 findings; secrets
scrubbed.`), but the actual message reads `… findings. Secrets have been
scrubbed from this error.`. -/
theorem C1_counterexample :
    runEvents cfg0 regErr giE (buildChecker (parseDiff exD1)) emT
      (parseDiff exD1) initES =
      .error ("unexpected failure near AKIAIOSFODNN7REAL123", exErrState) ∧
    exErrState.rawFindings.length = 0 ∧
    scanE cfg0 regErr giE emT exD1 = .error ⟨scrubMessage 0⟩ ∧
    scrubMessage 0 ≠
      "Internal scanner error after 0 findings; secrets scrubbed." :=
  ⟨rfl, rfl, rfl, by decide⟩

/-- C1 witness: the amended theorem applied at the raising fixture. -/
theorem C1_witness :
    scanE cfg0 regErr giE emT exD1 =
      .error ⟨scrubMessage exErrState.rawFindings.length⟩ :=
  (C1_scan_error_scrubbed cfg0 regErr giE emT exD1
    "unexpected failure near AKIAIOSFODNN7REAL123" exErrState rfl).1

/-! ## Engine loop shapes -/

/-- The content-rule loop, when it succeeds without early exit, appends
exactly its closed-form contribution. -/
theorem contentLoop_ok_shape :
    ∀ (rules : List ContentRule) (cfg : EConfig) (gi : GitSafeIgnore)
      (ck : SuppressionChecker) (fp : String) (ln : Int) (content : String)
      (st u : EngineState),
      cfg.earlyExit = false →
      contentLoop cfg gi ck fp ln content rules st = .ok u →
      u = { st with
        rawFindings := st.rawFindings ++
          (contentOut cfg.globalAllowlist gi ck fp ln content rules).1
        suppressions := st.suppressions ++
          (contentOut cfg.globalAllowlist gi ck fp ln content rules).2 } := by
  intro rules
  induction rules with
  | nil =>
    intro cfg gi ck fp ln content st u hEE h
    simp only [contentLoop] at h
    injection h with h2
    subst h2
    simp [contentOut]
  | cons r rs ih =>
    intro cfg gi ck fp ln content st u hEE h
    simp only [contentLoop] at h
    by_cases hent : r.isEntropyRule = true
    · simp only [hent, if_true] at h
      simp only [contentOut, hent, if_true]
      exact ih cfg gi ck fp ln content st u hEE h
    · simp only [hent, Bool.false_eq_true, if_false] at h
      simp only [contentOut, hent, Bool.false_eq_true, if_false]
      cases hsr : r.search content with
      | error m =>
        rw [hsr] at h
        exact absurd h (by simp)
      | ok om =>
        rw [hsr] at h
        cases om with
        | none => exact ih cfg gi ck fp ln content st u hEE h
        | some matched =>
          by_cases hra : r.allowMatch matched = true
          · simp only [hra, if_true] at h ⊢
            exact ih cfg gi ck fp ln content st u hEE h
          · simp only [hra, Bool.false_eq_true, if_false] at h ⊢
            by_cases hga : anyMatch cfg.globalAllowlist matched = true
            · simp only [hga, if_true] at h ⊢
              exact ih cfg gi ck fp ln content st u hEE h
            · simp only [hga, Bool.false_eq_true, if_false] at h ⊢
              by_cases hgi : giIsIgnored gi fp (some r.id) = true
              · simp only [hgi, if_true] at h ⊢
                exact ih cfg gi ck fp ln content st u hEE h
              · simp only [hgi, Bool.false_eq_true, if_false] at h ⊢
                cases hck : checkerIsSuppressed ck fp ln r.id with
                | some sup =>
                  rw [hck] at h
                  have h2 := ih cfg gi ck fp ln content _ u hEE h
                  rw [h2]
                  simp [List.append_assoc]
                | none =>
                  rw [hck] at h
                  rw [hEE] at h
                  simp only [Bool.false_and, Bool.false_eq_true, if_false] at h
                  have h2 := ih cfg gi ck fp ln content _ u hEE h
                  rw [h2]
                  simp [List.append_assoc]

/-- The entropy phase appends exactly its closed-form contribution. -/
theorem entropyPhase_shape :
    ∀ (cfg : EConfig) (gi : GitSafeIgnore) (ck : SuppressionChecker)
      (em : EntropyModel) (fp : String) (ln : Int) (content : String)
      (st : EngineState),
      entropyPhase cfg gi ck em fp ln content st =
        { st with
          rawFindings := st.rawFindings ++
            (entropyOut cfg.globalAllowlist gi ck em fp ln
              (lineHits cfg em content)).1
          suppressions := st.suppressions ++
            (entropyOut cfg.globalAllowlist gi ck em fp ln
              (lineHits cfg em content)).2 } := by
  intro cfg gi ck em fp ln content st
  unfold entropyPhase lineHits
  by_cases hen : cfg.entropyEnabled = true
  · simp only [hen, if_true]
    generalize find_high_entropy em.H content cfg.minEntropy cfg.minLength
      = hits
    induction hits generalizing st with
    | nil => simp [entropyOut]
    | cons hit hs ih =>
      simp only [List.foldl_cons]
      rw [ih]
      unfold entropyHit
      simp only [entropyOut]
      by_cases hga : anyMatch cfg.globalAllowlist hit.1 = true
      · simp [hga]
      · simp only [hga, Bool.false_eq_true, if_false]
        by_cases hgi : giIsIgnored gi fp (some "HIGH_ENTROPY_STRING") = true
        · simp [hgi]
        · simp only [hgi, Bool.false_eq_true, if_false]
          cases hck :
              checkerIsSuppressed ck fp ln "HIGH_ENTROPY_STRING" with
          | some sup => simp [List.append_assoc]
          | none => simp [List.append_assoc]
  · simp only [hen, Bool.false_eq_true, if_false]
    simp [entropyOut]

/-- The circuit breaker is inert when `ci.max_findings` is unset. -/
theorem breaker_none (cfg : EConfig) (st : EngineState)
    (h : cfg.maxFindings = none) : breakerCheck cfg st = st := by
  unfold breakerCheck
  rw [h]

/-- `anyMatch` over a concatenation. -/
theorem anyMatch_append (a b : List (String → Bool)) (t : String) :
    anyMatch (a ++ b) t = (anyMatch a t || anyMatch b t) := by
  simp [anyMatch]

/-- One added-line step (not stopped, not ignored, no early exit, no
breaker) appends exactly the two closed-form contributions and marks the
file scanned. -/
theorem stepEvent_line_shape (cfg : EConfig) (reg : Registry)
    (gi : GitSafeIgnore) (ck : SuppressionChecker) (em : EntropyModel)
    (st : EngineState) (fp : String) (ln : Int) (content : String)
    (u : EngineState) (hEE : cfg.earlyExit = false)
    (hMax : cfg.maxFindings = none) (hstop : st.stopped = false)
    (hign : fp ∉ st.ignoredFiles)
    (h : stepEvent cfg reg gi ck em st
      (.line fp ln content LineType.added) = .ok u) :
    u = { st with
      scannedFiles := insertNew st.scannedFiles fp
      rawFindings := (st.rawFindings ++
        (contentOut cfg.globalAllowlist gi ck fp ln content
          reg.contentRules).1) ++
        (entropyOut cfg.globalAllowlist gi ck em fp ln
          (lineHits cfg em content)).1
      suppressions := (st.suppressions ++
        (contentOut cfg.globalAllowlist gi ck fp ln content
          reg.contentRules).2) ++
        (entropyOut cfg.globalAllowlist gi ck em fp ln
          (lineHits cfg em content)).2 } := by
  simp only [stepEvent, hstop, Bool.false_eq_true, if_false, if_true] at h
  rw [if_neg hign] at h
  cases hcl : contentLoop cfg gi ck fp ln content reg.contentRules
      ⟨st.rawFindings, st.suppressions, st.skippedFiles,
       insertNew st.scannedFiles fp, st.ignoredFiles, false⟩ with
  | error e =>
    rw [hcl] at h
    exact absurd h (by simp)
  | ok st2 =>
    rw [hcl] at h
    injection h with h2
    have h3 := contentLoop_ok_shape reg.contentRules cfg gi ck fp ln content
      _ st2 hEE hcl
    rw [← h2, breaker_none cfg _ hMax, entropyPhase_shape, h3]
    simp [hstop]

/-- First-component sublist relation of the content contribution when the
global allowlist grows by one pattern. -/
theorem contentOut_allowlist_sub (ga : List (String → Bool))
    (p : String → Bool) (gi : GitSafeIgnore) (ck : SuppressionChecker)
    (fp : String) (ln : Int) (content : String) :
    ∀ (rules : List ContentRule),
      ((contentOut (ga ++ [p]) gi ck fp ln content rules).1).Sublist
        (contentOut ga gi ck fp ln content rules).1 ∧
      ((contentOut (ga ++ [p]) gi ck fp ln content rules).2).Sublist
        (contentOut ga gi ck fp ln content rules).2 := by
  intro rules
  induction rules with
  | nil => exact ⟨List.Sublist.refl _, List.Sublist.refl _⟩
  | cons r rs ih =>
    simp only [contentOut]
    by_cases hent : r.isEntropyRule = true
    · simp only [hent, if_true]
      exact ih
    · simp only [hent, Bool.false_eq_true, if_false]
      cases hsr : r.search content with
      | error m => exact ih
      | ok om =>
        cases om with
        | none => exact ih
        | some matched =>
          by_cases hra : r.allowMatch matched = true
          · simp only [hra, if_true]
            exact ih
          · simp only [hra, Bool.false_eq_true, if_false]
            rw [anyMatch_append]
            by_cases hga : anyMatch ga matched = true
            · simp only [hga, Bool.true_or, if_true]
              exact ih
            · simp only [hga, Bool.false_or, Bool.false_eq_true, if_false]
              by_cases hp : anyMatch [p] matched = true
              · simp only [hp, if_true]
                by_cases hgi : giIsIgnored gi fp (some r.id) = true
                · simp only [hgi, if_true]
                  exact ih
                · simp only [hgi, Bool.false_eq_true, if_false]
                  cases hck : checkerIsSuppressed ck fp ln r.id with
                  | some sup =>
                    exact ⟨ih.1, ih.2.trans (List.Sublist.cons _
                      (List.Sublist.refl _))⟩
                  | none =>
                    exact ⟨ih.1.trans (List.Sublist.cons _
                      (List.Sublist.refl _)), ih.2⟩
              · simp only [hp, Bool.false_eq_true, if_false]
                by_cases hgi : giIsIgnored gi fp (some r.id) = true
                · simp only [hgi, if_true]
                  exact ih
                · simp only [hgi, Bool.false_eq_true, if_false]
                  cases hck : checkerIsSuppressed ck fp ln r.id with
                  | some sup => exact ⟨ih.1, ih.2.cons₂ _⟩
                  | none => exact ⟨ih.1.cons₂ _, ih.2⟩

/-- The same sublist relation for the entropy contribution. -/
theorem entropyOut_allowlist_sub (ga : List (String → Bool))
    (p : String → Bool) (gi : GitSafeIgnore) (ck : SuppressionChecker)
    (em : EntropyModel) (fp : String) (ln : Int) :
    ∀ (hits : List (String × ℚ)),
      ((entropyOut (ga ++ [p]) gi ck em fp ln hits).1).Sublist
        (entropyOut ga gi ck em fp ln hits).1 ∧
      ((entropyOut (ga ++ [p]) gi ck em fp ln hits).2).Sublist
        (entropyOut ga gi ck em fp ln hits).2 := by
  intro hits
  induction hits with
  | nil => exact ⟨List.Sublist.refl _, List.Sublist.refl _⟩
  | cons hit hs ih =>
    simp only [entropyOut]
    rw [anyMatch_append]
    by_cases hga : anyMatch ga hit.1 = true
    · simp only [hga, Bool.true_or, if_true]
      exact ih
    · simp only [hga, Bool.false_or, Bool.false_eq_true, if_false]
      by_cases hp : anyMatch [p] hit.1 = true
      · simp only [hp, if_true]
        by_cases hgi : giIsIgnored gi fp (some "HIGH_ENTROPY_STRING") = true
        · simp only [hgi, if_true]
          exact ih
        · simp only [hgi, Bool.false_eq_true, if_false]
          cases hck : checkerIsSuppressed ck fp ln "HIGH_ENTROPY_STRING" with
          | some sup =>
            exact ⟨ih.1, ih.2.trans (List.Sublist.cons _
              (List.Sublist.refl _))⟩
          | none =>
            exact ⟨ih.1.trans (List.Sublist.cons _
              (List.Sublist.refl _)), ih.2⟩
      · simp only [hp, Bool.false_eq_true, if_false]
        by_cases hgi : giIsIgnored gi fp (some "HIGH_ENTROPY_STRING") = true
        · simp only [hgi, if_true]
          exact ih
        · simp only [hgi, Bool.false_eq_true, if_false]
          cases hck : checkerIsSuppressed ck fp ln "HIGH_ENTROPY_STRING" with
          | some sup => exact ⟨ih.1, ih.2.cons₂ _⟩
          | none => exact ⟨ih.1.cons₂ _, ih.2⟩

/-! ## Claim C3 -/

/-- One step preserves the sublist relation between a run and the same
run with one extra global-allowlist pattern. -/
theorem stepEvent_sub (cfg : EConfig) (p : String → Bool) (reg : Registry)
    (gi : GitSafeIgnore) (ck : SuppressionChecker) (em : EntropyModel)
    (e : DiffItem) (s₁ s₂ u₁ u₂ : EngineState)
    (hEE : cfg.earlyExit = false) (hMax : cfg.maxFindings = none)
    (hrel : SubRel s₁ s₂)
    (h₁ : stepEvent cfg reg gi ck em s₁ e = .ok u₁)
    (h₂ : stepEvent { cfg with globalAllowlist := cfg.globalAllowlist ++ [p] }
      reg gi ck em s₂ e = .ok u₂) :
    SubRel u₁ u₂ := by
  obtain ⟨hraw, hsup, hskip, hscan, hign, hstop⟩ := hrel
  by_cases hs : s₁.stopped = true
  · have hs2 : s₂.stopped = true := by rw [hstop, hs]
    simp only [stepEvent, hs, hs2, if_true] at h₁ h₂
    injection h₁ with e₁
    injection h₂ with e₂
    subst e₁
    subst e₂
    exact ⟨hraw, hsup, hskip, hscan, hign, hstop⟩
  · have hs1 : s₁.stopped = false := by
      revert hs; cases s₁.stopped <;> simp
    have hs2 : s₂.stopped = false := by rw [hstop, hs1]
    cases e with
    | skipped path reason =>
      simp only [stepEvent, hs1, hs2, Bool.false_eq_true, if_false] at h₁ h₂
      injection h₁ with e₁
      injection h₂ with e₂
      subst e₁
      subst e₂
      exact ⟨hraw, hsup, by simp [hskip], hscan, hign, rfl⟩
    | file path oldp status =>
      simp only [stepEvent, hs1, hs2, Bool.false_eq_true, if_false] at h₁ h₂
      by_cases hg1 : cfg.ignoreGlobs.any (fun g => g path) = true
      · simp only [hg1, if_true] at h₁ h₂
        injection h₁ with e₁
        injection h₂ with e₂
        subst e₁
        subst e₂
        exact ⟨hraw, hsup, by simp [hskip], hscan, by simp [hign], rfl⟩
      · simp only [hg1, Bool.false_eq_true, if_false] at h₁ h₂
        by_cases hg2 : giIsIgnored gi path none = true
        · simp only [hg2, if_true] at h₁ h₂
          injection h₁ with e₁
          injection h₂ with e₂
          subst e₁
          subst e₂
          exact ⟨hraw, hsup, by simp [hskip], hscan, by simp [hign], rfl⟩
        · simp only [hg2, Bool.false_eq_true, if_false] at h₁ h₂
          injection h₁ with e₁
          injection h₂ with e₂
          subst e₁
          subst e₂
          exact ⟨List.Sublist.append hraw (List.Sublist.refl _), hsup,
            hskip, by simp [hscan], hign, rfl⟩
    | line fp ln content lt =>
      cases lt with
      | removed =>
        simp only [stepEvent, hs1, hs2, Bool.false_eq_true, if_false] at h₁ h₂
        rw [if_neg (by decide)] at h₁
        rw [if_neg (by decide)] at h₂
        injection h₁ with e₁
        injection h₂ with e₂
        subst e₁
        subst e₂
        exact ⟨hraw, hsup, hskip, hscan, hign, hstop⟩
      | context =>
        simp only [stepEvent, hs1, hs2, Bool.false_eq_true, if_false] at h₁ h₂
        rw [if_neg (by decide)] at h₁
        rw [if_neg (by decide)] at h₂
        injection h₁ with e₁
        injection h₂ with e₂
        subst e₁
        subst e₂
        exact ⟨hraw, hsup, hskip, hscan, hign, hstop⟩
      | added =>
        by_cases hin : fp ∈ s₁.ignoredFiles
        · have hin2 : fp ∈ s₂.ignoredFiles := by rw [hign]; exact hin
          simp only [stepEvent, hs1, hs2, Bool.false_eq_true, if_false,
            if_true] at h₁ h₂
          rw [if_pos hin] at h₁
          rw [if_pos hin2] at h₂
          injection h₁ with e₁
          injection h₂ with e₂
          subst e₁
          subst e₂
          exact ⟨hraw, hsup, hskip, hscan, hign, hstop⟩
        · have hin2 : fp ∉ s₂.ignoredFiles := by rw [hign]; exact hin
          have hsh₁ := stepEvent_line_shape cfg reg gi ck em s₁ fp ln content
            u₁ hEE hMax hs1 hin h₁
          have hsh₂ := stepEvent_line_shape
            { cfg with globalAllowlist := cfg.globalAllowlist ++ [p] } reg gi
            ck em s₂ fp ln content u₂ hEE hMax hs2 hin2 h₂
          rw [hsh₁, hsh₂]
          refine ⟨?_, ?_, hskip, by simp [hscan], hign, hstop⟩
          · exact List.Sublist.append
              (List.Sublist.append hraw
                (contentOut_allowlist_sub cfg.globalAllowlist p gi ck fp ln
                  content reg.contentRules).1)
              (entropyOut_allowlist_sub cfg.globalAllowlist p gi ck em fp
                ln (lineHits cfg em content)).1
          · exact List.Sublist.append
              (List.Sublist.append hsup
                (contentOut_allowlist_sub cfg.globalAllowlist p gi ck fp ln
                  content reg.contentRules).2)
              (entropyOut_allowlist_sub cfg.globalAllowlist p gi ck em fp
                ln (lineHits cfg em content)).2

/-- The whole main pass preserves the sublist relation. -/
theorem runEvents_sub :
    ∀ (es : List DiffItem) (cfg : EConfig) (p : String → Bool)
      (reg : Registry) (gi : GitSafeIgnore) (ck : SuppressionChecker)
      (em : EntropyModel) (s₁ s₂ t₁ t₂ : EngineState),
      cfg.earlyExit = false → cfg.maxFindings = none → SubRel s₁ s₂ →
      runEvents cfg reg gi ck em es s₁ = .ok t₁ →
      runEvents { cfg with globalAllowlist := cfg.globalAllowlist ++ [p] }
        reg gi ck em es s₂ = .ok t₂ →
      SubRel t₁ t₂ := by
  intro es
  induction es with
  | nil =>
    intro cfg p reg gi ck em s₁ s₂ t₁ t₂ _ _ hrel h₁ h₂
    injection h₁ with e₁
    injection h₂ with e₂
    subst e₁
    subst e₂
    exact hrel
  | cons e rest ih =>
    intro cfg p reg gi ck em s₁ s₂ t₁ t₂ hEE hMax hrel h₁ h₂
    simp only [runEvents] at h₁ h₂
    cases hse₁ : stepEvent cfg reg gi ck em s₁ e with
    | error err =>
      rw [hse₁] at h₁
      exact absurd h₁ (by simp)
    | ok u₁ =>
      rw [hse₁] at h₁
      cases hse₂ : stepEvent
          { cfg with globalAllowlist := cfg.globalAllowlist ++ [p] } reg gi
          ck em s₂ e with
      | error err =>
        rw [hse₂] at h₂
        exact absurd h₂ (by simp)
      | ok u₂ =>
        rw [hse₂] at h₂
        exact ih cfg p reg gi ck em u₁ u₂ t₁ t₂ hEE hMax
          (stepEvent_sub cfg p reg gi ck em e s₁ s₂ u₁ u₂ hEE hMax hrel
            hse₁ hse₂) h₁ h₂

/-- C3, corrected: with `scan.early_exit` disabled and no
`ci.max_findings` circuit breaker, adding one pattern to the global
allowlist never makes a finding key appear: every finding of the extended
run shares its `(rule_id, file, line_no)` key with a finding of the
original run.  With early exit or the breaker enabled the claim fails
(see the counterexample), because an allowlisted critical match no longer
stops the rule loop (resp. no longer trips the breaker), letting later
rules and lines produce findings that were absent before. -/
theorem C3_allowlist_monotone :
    ∀ (cfg : EConfig) (reg : Registry) (gi : GitSafeIgnore)
      (em : EntropyModel) (diff : String) (p : String → Bool)
      (r₁ r₂ : ScanResult),
      cfg.earlyExit = false → cfg.maxFindings = none →
      scanE cfg reg gi em diff = .ok r₁ →
      scanE { cfg with globalAllowlist := cfg.globalAllowlist ++ [p] } reg gi
        em diff = .ok r₂ →
      ∀ f₂ ∈ r₂.findings, ∃ f₁ ∈ r₁.findings, fkey f₁ = fkey f₂ := by
  intro cfg reg gi em diff p r₁ r₂ hEE hMax h₁ h₂ f₂ hf₂
  have g₁ : (match runEvents cfg reg gi (buildChecker (parseDiff diff)) em
      (parseDiff diff) initES with
    | Except.error e =>
      (Except.error ⟨scrubMessage e.2.rawFindings.length⟩ :
        Except ScanErr ScanResult)
    | Except.ok st => Except.ok (mkScanResult cfg st)) = Except.ok r₁ := h₁
  have g₂ : (match runEvents
      { cfg with globalAllowlist := cfg.globalAllowlist ++ [p] } reg gi
      (buildChecker (parseDiff diff)) em (parseDiff diff) initES with
    | Except.error e =>
      (Except.error ⟨scrubMessage e.2.rawFindings.length⟩ :
        Except ScanErr ScanResult)
    | Except.ok st => Except.ok (mkScanResult
        { cfg with globalAllowlist := cfg.globalAllowlist ++ [p] } st)) =
      Except.ok r₂ := h₂
  cases hrun₁ : runEvents cfg reg gi (buildChecker (parseDiff diff)) em
      (parseDiff diff) initES with
  | error e =>
    rw [hrun₁] at g₁
    exact absurd g₁ (by simp)
  | ok t₁ =>
    rw [hrun₁] at g₁
    cases hrun₂ : runEvents
        { cfg with globalAllowlist := cfg.globalAllowlist ++ [p] } reg gi
        (buildChecker (parseDiff diff)) em (parseDiff diff) initES with
    | error e =>
      rw [hrun₂] at g₂
      exact absurd g₂ (by simp)
    | ok t₂ =>
      rw [hrun₂] at g₂
      injection g₁ with e₁
      injection g₂ with e₂
      have hrel := runEvents_sub (parseDiff diff) cfg p reg gi
        (buildChecker (parseDiff diff)) em initES initES t₁ t₂ hEE hMax
        ⟨List.Sublist.refl _, List.Sublist.refl _, rfl, rfl, rfl, rfl⟩
        hrun₁ hrun₂
      have hf₂d : f₂ ∈ deduplicate t₂.rawFindings cfg.failOn := by
        rw [← e₂] at hf₂
        exact hf₂
      obtain ⟨rr, hrr, hkey⟩ :=
        deduplicate_sound t₂.rawFindings cfg.failOn f₂ hf₂d
      have hrr₁ : rr ∈ t₁.rawFindings := hrel.1.subset hrr
      obtain ⟨f₁, hf₁, hk₁⟩ :=
        deduplicate_complete t₁.rawFindings cfg.failOn rr hrr₁
      refine ⟨f₁, ?_, by rw [hk₁, hkey]⟩
      rw [← e₁]
      exact hf₁

/-- C3, counterexample to the claim as stated: with `early_exit = true`,
the original scan of `exD1` finds only `AWS_ACCESS_KEY` (the critical hit
stops the rule loop), while the scan extended by the allowlist pattern
for the AWS value finds `GENERIC_TOKEN` — a finding that was absent
before, so the extended finding set is not a subset of the original. -/
theorem C3_counterexample :
    (scanE { cfgEE with
        globalAllowlist := cfgEE.globalAllowlist ++ [allowAKIA] } reg2 giE
        emT exD1).toOption.map (fun r => r.findings.map fkey) =
      some [("GENERIC_TOKEN", "config.py", 1)] ∧
    (scanE cfgEE reg2 giE emT exD1).toOption.map
        (fun r => r.findings.map fkey) =
      some [("AWS_ACCESS_KEY", "config.py", 1)] ∧
    ¬ ((("GENERIC_TOKEN" : String), ("config.py" : String), (1 : Int)) ∈
        [(("AWS_ACCESS_KEY" : String), ("config.py" : String), (1 : Int))]) := by
  decide

/-- C3 witness: the amended theorem applied at the baseline (no early
exit) fixtures, instantiated at the extended run's finding. -/
theorem C3_witness :
    ∃ f₁ ∈ exC3res1.findings, fkey f₁ = fkey exC3f2 :=
  C3_allowlist_monotone cfg0 reg2 giE emT exD1 allowAKIA exC3res1 exC3res2
    rfl rfl rfl rfl exC3f2 (by decide)

/-! ## Claim C4 -/

/-- The content contribution's combined size is checker-independent: each
candidate that passes the allowlist and ignore filters contributes exactly
one raw finding or one suppression. -/
theorem contentOut_sum (ga : List (String → Bool)) (gi : GitSafeIgnore)
    (ck₁ ck₂ : SuppressionChecker) (fp : String) (ln : Int) (c₁ c₂ : String) :
    ∀ (rules : List ContentRule),
      (∀ r ∈ rules, r.search c₂ = r.search c₁) →
      (contentOut ga gi ck₂ fp ln c₂ rules).1.length +
        (contentOut ga gi ck₂ fp ln c₂ rules).2.length =
      (contentOut ga gi ck₁ fp ln c₁ rules).1.length +
        (contentOut ga gi ck₁ fp ln c₁ rules).2.length := by
  intro rules
  induction rules with
  | nil => intro _; rfl
  | cons r rs ih =>
    intro hse
    have hr := hse r (List.mem_cons_self _ _)
    have hrest := ih (fun r2 h2 => hse r2 (List.mem_cons_of_mem _ h2))
    simp only [contentOut, hr]
    by_cases hent : r.isEntropyRule = true
    · simp only [hent, if_true]
      exact hrest
    · simp only [hent, Bool.false_eq_true, if_false]
      cases hs1 : r.search c₁ with
      | error m => exact hrest
      | ok om =>
        cases om with
        | none => exact hrest
        | some matched =>
          by_cases hra : r.allowMatch matched = true
          · simp only [hra, if_true]
            exact hrest
          · simp only [hra, Bool.false_eq_true, if_false]
            by_cases hga : anyMatch ga matched = true
            · simp only [hga, if_true]
              exact hrest
            · simp only [hga, Bool.false_eq_true, if_false]
              by_cases hgi : giIsIgnored gi fp (some r.id) = true
              · simp only [hgi, if_true]
                exact hrest
              · simp only [hgi, Bool.false_eq_true, if_false]
                cases hck2 : checkerIsSuppressed ck₂ fp ln r.id with
                | some sup =>
                  cases hck1 : checkerIsSuppressed ck₁ fp ln r.id with
                  | some sup2 => simp only [List.length_cons]; omega
                  | none => simp only [List.length_cons]; omega
                | none =>
                  cases hck1 : checkerIsSuppressed ck₁ fp ln r.id with
                  | some sup2 => simp only [List.length_cons]; omega
                  | none => simp only [List.length_cons]; omega

/-- The entropy contribution's combined size is checker-independent. -/
theorem entropyOut_sum (ga : List (String → Bool)) (gi : GitSafeIgnore)
    (ck₁ ck₂ : SuppressionChecker) (em : EntropyModel) (fp : String)
    (ln : Int) :
    ∀ (hits : List (String × ℚ)),
      (entropyOut ga gi ck₂ em fp ln hits).1.length +
        (entropyOut ga gi ck₂ em fp ln hits).2.length =
      (entropyOut ga gi ck₁ em fp ln hits).1.length +
        (entropyOut ga gi ck₁ em fp ln hits).2.length := by
  intro hits
  induction hits with
  | nil => rfl
  | cons hit hs ih =>
    simp only [entropyOut]
    by_cases hga : anyMatch ga hit.1 = true
    · simp only [hga, if_true]
      exact ih
    · simp only [hga, Bool.false_eq_true, if_false]
      by_cases hgi : giIsIgnored gi fp (some "HIGH_ENTROPY_STRING") = true
      · simp only [hgi, if_true]
        exact ih
      · simp only [hgi, Bool.false_eq_true, if_false]
        cases hck2 : checkerIsSuppressed ck₂ fp ln "HIGH_ENTROPY_STRING" with
        | some sup =>
          cases hck1 :
              checkerIsSuppressed ck₁ fp ln "HIGH_ENTROPY_STRING" with
          | some sup2 => simp only [List.length_cons]; omega
          | none => simp only [List.length_cons]; omega
        | none =>
          cases hck1 :
              checkerIsSuppressed ck₁ fp ln "HIGH_ENTROPY_STRING" with
          | some sup2 => simp only [List.length_cons]; omega
          | none => simp only [List.length_cons]; omega

/-- One step preserves the sum relation between the two related runs. -/
theorem stepEvent_sum (cfg : EConfig) (reg : Registry) (gi : GitSafeIgnore)
    (ck₁ ck₂ : SuppressionChecker) (em : EntropyModel) (e₁ e₂ : DiffItem)
    (s₁ s₂ u₁ u₂ : EngineState)
    (hEE : cfg.earlyExit = false) (hMax : cfg.maxFindings = none)
    (hrel : SumRel s₁ s₂)
    (hev : evRel reg.contentRules em cfg.minEntropy cfg.minLength e₁ e₂)
    (h₁ : stepEvent cfg reg gi ck₁ em s₁ e₁ = .ok u₁)
    (h₂ : stepEvent cfg reg gi ck₂ em s₂ e₂ = .ok u₂) :
    SumRel u₁ u₂ := by
  obtain ⟨hsum, hskip, hscan, hign, hstop⟩ := hrel
  by_cases hs : s₁.stopped = true
  · have hs2 : s₂.stopped = true := by rw [← hstop, hs]
    simp only [stepEvent, hs, hs2, if_true] at h₁ h₂
    injection h₁ with g₁
    injection h₂ with g₂
    subst g₁
    subst g₂
    exact ⟨hsum, hskip, hscan, hign, hstop⟩
  · have hs1 : s₁.stopped = false := by
      revert hs; cases s₁.stopped <;> simp
    have hs2 : s₂.stopped = false := by rw [← hstop, hs1]
    cases e₁ with
    | skipped path reason =>
      cases e₂ with
      | file _ _ _ => exact absurd hev (by simp [evRel])
      | line _ _ _ _ => exact absurd hev (by simp [evRel])
      | skipped path2 reason2 =>
        obtain ⟨hp, hr⟩ := hev
        subst hp
        subst hr
        simp only [stepEvent, hs1, hs2, Bool.false_eq_true, if_false] at h₁ h₂
        injection h₁ with g₁
        injection h₂ with g₂
        subst g₁
        subst g₂
        exact ⟨hsum, by simp [hskip], hscan, hign, rfl⟩
    | file path oldp status =>
      cases e₂ with
      | skipped _ _ => exact absurd hev (by simp [evRel])
      | line _ _ _ _ => exact absurd hev (by simp [evRel])
      | file path2 oldp2 status2 =>
        obtain ⟨hp, ho, hst⟩ := hev
        subst hp
        subst ho
        subst hst
        simp only [stepEvent, hs1, hs2, Bool.false_eq_true, if_false] at h₁ h₂
        by_cases hg1 : cfg.ignoreGlobs.any (fun g => g path) = true
        · simp only [hg1, if_true] at h₁ h₂
          injection h₁ with g₁
          injection h₂ with g₂
          subst g₁
          subst g₂
          exact ⟨hsum, by simp [hskip], hscan, by simp [hign], rfl⟩
        · simp only [hg1, Bool.false_eq_true, if_false] at h₁ h₂
          by_cases hg2 : giIsIgnored gi path none = true
          · simp only [hg2, if_true] at h₁ h₂
            injection h₁ with g₁
            injection h₂ with g₂
            subst g₁
            subst g₂
            exact ⟨hsum, by simp [hskip], hscan, by simp [hign], rfl⟩
          · simp only [hg2, Bool.false_eq_true, if_false] at h₁ h₂
            injection h₁ with g₁
            injection h₂ with g₂
            subst g₁
            subst g₂
            refine ⟨?_, hskip, by simp [hscan], hign, rfl⟩
            simp only [List.length_append]
            omega
    | line fp ln content lt =>
      cases e₂ with
      | skipped _ _ => exact absurd hev (by simp [evRel])
      | file _ _ _ => exact absurd hev (by simp [evRel])
      | line fp2 ln2 content2 lt2 =>
        obtain ⟨hf, hn, hlt, hsearch, hent⟩ := hev
        subst hf
        subst hn
        subst hlt
        cases lt with
        | removed =>
          simp only [stepEvent, hs1, hs2, Bool.false_eq_true, if_false] at h₁ h₂
          rw [if_neg (by decide)] at h₁
          rw [if_neg (by decide)] at h₂
          injection h₁ with g₁
          injection h₂ with g₂
          subst g₁
          subst g₂
          exact ⟨hsum, hskip, hscan, hign, hstop⟩
        | context =>
          simp only [stepEvent, hs1, hs2, Bool.false_eq_true, if_false] at h₁ h₂
          rw [if_neg (by decide)] at h₁
          rw [if_neg (by decide)] at h₂
          injection h₁ with g₁
          injection h₂ with g₂
          subst g₁
          subst g₂
          exact ⟨hsum, hskip, hscan, hign, hstop⟩
        | added =>
          by_cases hin : fp ∈ s₁.ignoredFiles
          · have hin2 : fp ∈ s₂.ignoredFiles := by rw [← hign]; exact hin
            simp only [stepEvent, hs1, hs2, Bool.false_eq_true, if_false,
              if_true] at h₁ h₂
            rw [if_pos hin] at h₁
            rw [if_pos hin2] at h₂
            injection h₁ with g₁
            injection h₂ with g₂
            subst g₁
            subst g₂
            exact ⟨hsum, hskip, hscan, hign, hstop⟩
          · have hin2 : fp ∉ s₂.ignoredFiles := by rw [← hign]; exact hin
            have hsh₁ := stepEvent_line_shape cfg reg gi ck₁ em s₁ fp ln
              content u₁ hEE hMax hs1 hin h₁
            have hsh₂ := stepEvent_line_shape cfg reg gi ck₂ em s₂ fp ln
              content2 u₂ hEE hMax hs2 hin2 h₂
            have hhits : lineHits cfg em content2 = lineHits cfg em content := by
              unfold lineHits
              rw [hent]
            rw [hsh₁, hsh₂]
            refine ⟨?_, hskip, by simp [hscan], hign, hstop⟩
            simp only [List.length_append]
            have hc := contentOut_sum cfg.globalAllowlist gi ck₁ ck₂ fp ln
              content content2 reg.contentRules hsearch
            have he := entropyOut_sum cfg.globalAllowlist gi ck₁ ck₂ em fp ln
              (lineHits cfg em content)
            rw [hhits] at hsh₂ ⊢
            omega

/-- The whole main pass preserves the sum relation over related event
streams. -/
theorem runEvents_sum :
    ∀ (es₁ es₂ : List DiffItem) (cfg : EConfig) (reg : Registry)
      (gi : GitSafeIgnore) (ck₁ ck₂ : SuppressionChecker) (em : EntropyModel)
      (s₁ s₂ t₁ t₂ : EngineState),
      cfg.earlyExit = false → cfg.maxFindings = none →
      List.Forall₂ (evRel reg.contentRules em cfg.minEntropy cfg.minLength)
        es₁ es₂ →
      SumRel s₁ s₂ →
      runEvents cfg reg gi ck₁ em es₁ s₁ = .ok t₁ →
      runEvents cfg reg gi ck₂ em es₂ s₂ = .ok t₂ →
      SumRel t₁ t₂ := by
  intro es₁ es₂ cfg reg gi ck₁ ck₂ em s₁ s₂ t₁ t₂ hEE hMax hfor
  induction hfor generalizing s₁ s₂ with
  | nil =>
    intro hrel h₁ h₂
    injection h₁ with g₁
    injection h₂ with g₂
    subst g₁
    subst g₂
    exact hrel
  | cons hx hrest ih =>
    intro hrel h₁ h₂
    simp only [runEvents] at h₁ h₂
    cases hse₁ : stepEvent cfg reg gi ck₁ em s₁ _ with
    | error err =>
      rw [hse₁] at h₁
      exact absurd h₁ (by simp)
    | ok u₁ =>
      rw [hse₁] at h₁
      cases hse₂ : stepEvent cfg reg gi ck₂ em s₂ _ with
      | error err =>
        rw [hse₂] at h₂
        exact absurd h₂ (by simp)
      | ok u₂ =>
        rw [hse₂] at h₂
        exact ih u₁ u₂ (stepEvent_sum cfg reg gi ck₁ ck₂ em _ _ s₁ s₂ u₁ u₂
          hEE hMax hrel hx hse₁ hse₂) h₁ h₂

/-- C4, corrected: at the raw (pre-dedup) level and with
`scan.early_exit` disabled and no `ci.max_findings` breaker, the sum
`|raw findings| + |suppressions|` of the main pass is unchanged between
two event streams that differ only in added-line contents whose rule
search results and entropy hits are unchanged (adding an inline
suppression marker that no rule matches is such a change), whatever the
two suppression indexes are: each suppression record preempts exactly one
raw finding.  Post-dedup, or with early exit or the breaker, the claim as
stated fails (see the counterexample). -/
theorem C4_suppression_sum :
    ∀ (cfg : EConfig) (reg : Registry) (gi : GitSafeIgnore)
      (ck₁ ck₂ : SuppressionChecker) (em : EntropyModel)
      (es₁ es₂ : List DiffItem) (t₁ t₂ : EngineState),
      cfg.earlyExit = false → cfg.maxFindings = none →
      List.Forall₂ (evRel reg.contentRules em cfg.minEntropy cfg.minLength)
        es₁ es₂ →
      runEvents cfg reg gi ck₁ em es₁ initES = .ok t₁ →
      runEvents cfg reg gi ck₂ em es₂ initES = .ok t₂ →
      t₁.rawFindings.length + t₁.suppressions.length =
        t₂.rawFindings.length + t₂.suppressions.length := by
  intro cfg reg gi ck₁ ck₂ em es₁ es₂ t₁ t₂ hEE hMax hfor h₁ h₂
  exact (runEvents_sum es₁ es₂ cfg reg gi ck₁ ck₂ em initES initES t₁ t₂
    hEE hMax hfor ⟨rfl, rfl, rfl, rfl, rfl⟩ h₁ h₂).1

/-- C4, counterexample to the claim as stated: with `early_exit = true`,
scanning `exD1` yields one finding and no suppression (sum 1); appending
the inline marker to that previously finding-producing, unsuppressed line
(`exD2`) yields zero findings and two suppressions (sum 2) — the
suppressed critical match no longer stops the rule loop, so the second
rule is also consulted and suppressed. -/
theorem C4_counterexample :
    (scanE cfgEE reg2 giE emT exD1).toOption.map
        (fun r => r.findings.length + r.suppressed.length) = some 1 ∧
    (scanE cfgEE reg2 giE emT exD2).toOption.map
        (fun r => r.findings.length + r.suppressed.length) = some 2 ∧
    (1 : Nat) ≠ 2 := by
  decide

/-- C4 witness: the amended theorem applied to the parsed events of
`exD1` and `exD2` under the baseline config. -/
theorem C4_witness :
    exC4t1.rawFindings.length + exC4t1.suppressions.length =
      exC4t2.rawFindings.length + exC4t2.suppressions.length :=
  C4_suppression_sum cfg0 reg2 giE (buildChecker (parseDiff exD1))
    (buildChecker (parseDiff exD2)) emT (parseDiff exD1) (parseDiff exD2)
    exC4t1 exC4t2 rfl rfl
    (List.Forall₂.cons ⟨rfl, rfl, rfl⟩
      (List.Forall₂.cons
        ⟨rfl, rfl, rfl, by
          constructor
          · intro r hr
            cases hr with
            | head => rfl
            | tail _ hr2 =>
              cases hr2 with
              | head => rfl
              | tail _ hr3 => cases hr3
          · decide⟩
        List.Forall₂.nil))
    rfl rfl

/-! ## Claim C10 -/

/-- Already present elements survive `insertNew`. -/
theorem mem_insertNew (l : List String) (x y : String) (h : x ∈ l) :
    x ∈ insertNew l y := by
  unfold insertNew
  split
  · exact h
  · exact List.mem_append_left _ h

/-- The inserted element is in `insertNew`. -/
theorem self_mem_insertNew (l : List String) (y : String) :
    y ∈ insertNew l y := by
  unfold insertNew
  split
  · assumption
  · exact List.mem_append_right _ (List.mem_singleton_self y)

/-- `insertNew` adds nothing but `y`. -/
theorem not_mem_insertNew (l : List String) (x y : String) (hx : x ∉ l)
    (hxy : x ≠ y) : x ∉ insertNew l y := by
  unfold insertNew
  split
  · exact hx
  · intro hmem
    rcases List.mem_append.mp hmem with h1 | h1
    · exact hx h1
    · exact hxy (List.mem_singleton.mp h1)

/-- A suppression returned by the checker carries the queried file. -/
theorem checkerIsSuppressed_file (ck : SuppressionChecker) (fp : String)
    (ln : Int) (rid : String) (sup : Suppression)
    (h : checkerIsSuppressed ck fp ln rid = some sup) : sup.file = fp := by
  unfold checkerIsSuppressed at h
  repeat' split at h
  all_goals first
    | (injection h with h2; rw [← h2])
    | exact absurd h (by simp)

/-- A file-rule finding carries the scanned filepath. -/
theorem fileRuleFinding_file (fp bn : String) (fr : FileRule)
    (r : RawFinding) (h : fileRuleFinding fp bn fr = some r) :
    r.file = fp := by
  unfold fileRuleFinding at h
  repeat' split at h
  all_goals first
    | (injection h with h2; rw [← h2])
    | exact absurd h (by simp)

/-- All file-rule findings for a `DiffFile` carry its path. -/
theorem fileFindings_file (reg : Registry) (fp : String) (r : RawFinding)
    (h : r ∈ fileFindings reg fp) : r.file = fp := by
  obtain ⟨fr, hfr, hsome⟩ := List.mem_filterMap.mp h
  exact fileRuleFinding_file fp (pathBasename fp) fr r hsome

/-- The circuit breaker changes no field but `stopped`. -/
theorem breakerCheck_fields (cfg : EConfig) (st : EngineState) :
    (breakerCheck cfg st).rawFindings = st.rawFindings ∧
    (breakerCheck cfg st).suppressions = st.suppressions ∧
    (breakerCheck cfg st).skippedFiles = st.skippedFiles ∧
    (breakerCheck cfg st).scannedFiles = st.scannedFiles ∧
    (breakerCheck cfg st).ignoredFiles = st.ignoredFiles := by
  unfold breakerCheck
  repeat' split
  all_goals exact ⟨rfl, rfl, rfl, rfl, rfl⟩

/-- Every entropy contribution (finding or suppression) carries the
scanned file. -/
theorem entropyOut_files :
    ∀ (hits : List (String × ℚ)) (ga : List (String → Bool))
      (gi : GitSafeIgnore) (ck : SuppressionChecker) (em : EntropyModel)
      (fp : String) (ln : Int),
      (∀ r ∈ (entropyOut ga gi ck em fp ln hits).1, r.file = fp) ∧
      (∀ s ∈ (entropyOut ga gi ck em fp ln hits).2, s.file = fp) := by
  intro hits
  induction hits with
  | nil =>
    intro ga gi ck em fp ln
    refine ⟨fun r hr => ?_, fun s hs => ?_⟩
    · simp [entropyOut] at hr
    · simp [entropyOut] at hs
  | cons hit hs ih =>
    intro ga gi ck em fp ln
    obtain ⟨ih1, ih2⟩ := ih ga gi ck em fp ln
    simp only [entropyOut]
    by_cases hga : anyMatch ga hit.1 = true
    · simp only [hga, if_true]
      exact ⟨ih1, ih2⟩
    · simp only [hga, Bool.false_eq_true, if_false]
      by_cases hgi : giIsIgnored gi fp (some "HIGH_ENTROPY_STRING") = true
      · simp only [hgi, if_true]
        exact ⟨ih1, ih2⟩
      · simp only [hgi, Bool.false_eq_true, if_false]
        cases hck : checkerIsSuppressed ck fp ln "HIGH_ENTROPY_STRING" with
        | some sup =>
          refine ⟨ih1, ?_⟩
          intro s hsm
          rcases List.mem_cons.mp hsm with h1 | h1
          · rw [h1]
            exact checkerIsSuppressed_file ck fp ln "HIGH_ENTROPY_STRING"
              sup hck
          · exact ih2 s h1
        | none =>
          refine ⟨?_, ih2⟩
          intro r hr
          rcases List.mem_cons.mp hr with h1 | h1
          · rw [h1]
          · exact ih1 r h1

/-- A successful content loop (with or without early exit) only adds
findings and suppressions for the scanned file, and changes no other
state field. -/
theorem contentLoop_files :
    ∀ (rules : List ContentRule) (cfg : EConfig) (gi : GitSafeIgnore)
      (ck : SuppressionChecker) (fp : String) (ln : Int) (c : String)
      (st u : EngineState),
      contentLoop cfg gi ck fp ln c rules st = .ok u →
      (∀ r ∈ u.rawFindings, r ∈ st.rawFindings ∨ r.file = fp) ∧
      (∀ s ∈ u.suppressions, s ∈ st.suppressions ∨ s.file = fp) ∧
      u.skippedFiles = st.skippedFiles ∧
      u.scannedFiles = st.scannedFiles ∧
      u.ignoredFiles = st.ignoredFiles ∧
      u.stopped = st.stopped := by
  intro rules
  induction rules with
  | nil =>
    intro cfg gi ck fp ln c st u h
    simp only [contentLoop] at h
    injection h with h2
    subst h2
    exact ⟨fun r hr => Or.inl hr, fun s hsm => Or.inl hsm, rfl, rfl, rfl, rfl⟩
  | cons r rs ih =>
    intro cfg gi ck fp ln c st u h
    simp only [contentLoop] at h
    by_cases hent : r.isEntropyRule = true
    · simp only [hent, if_true] at h
      exact ih cfg gi ck fp ln c st u h
    · simp only [hent, Bool.false_eq_true, if_false] at h
      cases hsr : r.search c with
      | error m =>
        rw [hsr] at h
        exact absurd h (by simp)
      | ok om =>
        rw [hsr] at h
        cases om with
        | none => exact ih cfg gi ck fp ln c st u h
        | some matched =>
          by_cases hra : r.allowMatch matched = true
          · simp only [hra, if_true] at h
            exact ih cfg gi ck fp ln c st u h
          · simp only [hra, Bool.false_eq_true, if_false] at h
            by_cases hga : anyMatch cfg.globalAllowlist matched = true
            · simp only [hga, if_true] at h
              exact ih cfg gi ck fp ln c st u h
            · simp only [hga, Bool.false_eq_true, if_false] at h
              by_cases hgi : giIsIgnored gi fp (some r.id) = true
              · simp only [hgi, if_true] at h
                exact ih cfg gi ck fp ln c st u h
              · simp only [hgi, Bool.false_eq_true, if_false] at h
                cases hck : checkerIsSuppressed ck fp ln r.id with
                | some sup =>
                  rw [hck] at h
                  obtain ⟨h1, h2, h3, h4, h5, h6⟩ :=
                    ih cfg gi ck fp ln c _ u h
                  refine ⟨h1, ?_, h3, h4, h5, h6⟩
                  intro x hx
                  rcases h2 x hx with hin | hfp
                  · rcases List.mem_append.mp hin with hin2 | hin2
                    · exact Or.inl hin2
                    · right
                      rw [List.mem_singleton.mp hin2]
                      exact checkerIsSuppressed_file ck fp ln r.id sup hck
                  · exact Or.inr hfp
                | none =>
                  rw [hck] at h
                  have h7 : (if (cfg.earlyExit &&
                        decide (r.severity = "critical")) = true
                      then Except.ok { st with rawFindings :=
                        st.rawFindings ++ [mkRegexFinding r fp ln matched] }
                      else contentLoop cfg gi ck fp ln c rs
                        { st with rawFindings :=
                          st.rawFindings ++ [mkRegexFinding r fp ln matched] })
                      = Except.ok u := h
                  by_cases hee : (cfg.earlyExit &&
                      decide (r.severity = "critical")) = true
                  · rw [if_pos hee] at h7
                    injection h7 with h2
                    subst h2
                    refine ⟨?_, fun x hx => Or.inl hx, rfl, rfl, rfl, rfl⟩
                    intro x hx
                    rcases List.mem_append.mp hx with hin | hin
                    · exact Or.inl hin
                    · right
                      rw [List.mem_singleton.mp hin]
                      rfl
                  · rw [if_neg hee] at h7
                    obtain ⟨h1, h2, h3, h4, h5, h6⟩ :=
                      ih cfg gi ck fp ln c _ u h7
                    refine ⟨?_, h2, h3, h4, h5, h6⟩
                    intro x hx
                    rcases h1 x hx with hin | hfp
                    · rcases List.mem_append.mp hin with hin2 | hin2
                      · exact Or.inl hin2
                      · right
                        rw [List.mem_singleton.mp hin2]
                        rfl
                    · exact Or.inr hfp

/-- One step of the main pass preserves the ignored-path invariant, never
unsets the ignored mark or the stop flag, and a `DiffFile` event for a
would-be-ignored path marks it ignored. -/
theorem stepEvent_KInv (cfg : EConfig) (reg : Registry) (gi : GitSafeIgnore)
    (ck : SuppressionChecker) (em : EntropyModel) (P : String)
    (e : DiffItem) (s u : EngineState)
    (hWM : wouldMark cfg gi P = true)
    (hK : KInv P s)
    (hnl : (∀ n c, e ≠ DiffItem.line P n c LineType.added) ∨
      P ∈ s.ignoredFiles ∨ s.stopped = true)
    (h : stepEvent cfg reg gi ck em s e = .ok u) :
    KInv P u ∧ (P ∈ s.ignoredFiles → P ∈ u.ignoredFiles) ∧
    (s.stopped = true → u.stopped = true) ∧
    (∀ o fs, e = DiffItem.file P o fs → s.stopped = false →
      P ∈ u.ignoredFiles) := by
  obtain ⟨hKr, hKs, hKc⟩ := hK
  by_cases hs : s.stopped = true
  · simp only [stepEvent, hs, if_true] at h
    injection h with h2
    subst h2
    exact ⟨⟨hKr, hKs, hKc⟩, fun hh => hh, fun hh => hh,
      fun o fs he hstop => absurd hs (by rw [hstop]; simp)⟩
  · have hs1 : s.stopped = false := by
      revert hs; cases s.stopped <;> simp
    cases e with
    | skipped p reason =>
      simp only [stepEvent, hs1, Bool.false_eq_true, if_false] at h
      injection h with h2
      subst h2
      exact ⟨⟨hKr, hKs, hKc⟩, fun hh => hh,
        fun hh => absurd hh (by simp [hs1]),
        fun o fs he => absurd he (by simp)⟩
    | file p oldp status =>
      simp only [stepEvent, hs1, Bool.false_eq_true, if_false] at h
      by_cases hg1 : cfg.ignoreGlobs.any (fun g => g p) = true
      · simp only [hg1, if_true] at h
        injection h with h2
        subst h2
        refine ⟨⟨hKr, hKs, hKc⟩, fun hh => mem_insertNew _ _ _ hh,
          fun hh => absurd hh (by simp [hs1]), ?_⟩
        intro o fs he hstop
        injection he with he1 he2 he3
        rw [← he1]
        exact self_mem_insertNew _ _
      · simp only [hg1, Bool.false_eq_true, if_false] at h
        by_cases hg2 : giIsIgnored gi p none = true
        · simp only [hg2, if_true] at h
          injection h with h2
          subst h2
          refine ⟨⟨hKr, hKs, hKc⟩, fun hh => mem_insertNew _ _ _ hh,
            fun hh => absurd hh (by simp [hs1]), ?_⟩
          intro o fs he hstop
          injection he with he1 he2 he3
          rw [← he1]
          exact self_mem_insertNew _ _
        · simp only [hg2, Bool.false_eq_true, if_false] at h
          injection h with h2
          subst h2
          have hg1f : cfg.ignoreGlobs.any (fun g => g p) = false := by
            revert hg1
            cases cfg.ignoreGlobs.any (fun g => g p) <;> simp
          have hg2f : giIsIgnored gi p none = false := by
            revert hg2
            cases giIsIgnored gi p none <;> simp
          have hpP : p ≠ P := by
            intro hpe
            subst hpe
            unfold wouldMark at hWM
            rw [hg1f, hg2f] at hWM
            exact absurd hWM (by simp)
          refine ⟨⟨?_, hKs, ?_⟩, fun hh => hh,
            fun hh => absurd hh (by simp [hs1]), ?_⟩
          · intro r hr
            rcases List.mem_append.mp hr with h1 | h1
            · exact hKr r h1
            · rw [fileFindings_file reg p r h1]
              exact hpP
          · exact not_mem_insertNew _ _ _ hKc (fun hPp => hpP hPp.symm)
          · intro o fs he hstop
            injection he with he1
            exact absurd he1 hpP
    | line f n c lt =>
      cases lt with
      | removed =>
        simp only [stepEvent, hs1, Bool.false_eq_true, if_false] at h
        rw [if_neg (by decide)] at h
        injection h with h2
        subst h2
        exact ⟨⟨hKr, hKs, hKc⟩, fun hh => hh, fun hh => hh,
          fun o fs he => absurd he (by simp)⟩
      | context =>
        simp only [stepEvent, hs1, Bool.false_eq_true, if_false] at h
        rw [if_neg (by decide)] at h
        injection h with h2
        subst h2
        exact ⟨⟨hKr, hKs, hKc⟩, fun hh => hh, fun hh => hh,
          fun o fs he => absurd he (by simp)⟩
      | added =>
        by_cases hfP : f = P
        · subst hfP
          have hmem : f ∈ s.ignoredFiles := by
            rcases hnl with h1 | h2 | h3
            · exact absurd rfl (h1 n c)
            · exact h2
            · exact absurd h3 (by simp [hs1])
          simp only [stepEvent, hs1, Bool.false_eq_true, if_false,
            if_true] at h
          rw [if_pos hmem] at h
          injection h with h2
          subst h2
          exact ⟨⟨hKr, hKs, hKc⟩, fun hh => hh, fun hh => hh,
            fun o fs he => absurd he (by simp)⟩
        · by_cases hin : f ∈ s.ignoredFiles
          · simp only [stepEvent, hs1, Bool.false_eq_true, if_false,
              if_true] at h
            rw [if_pos hin] at h
            injection h with h2
            subst h2
            exact ⟨⟨hKr, hKs, hKc⟩, fun hh => hh, fun hh => hh,
              fun o fs he => absurd he (by simp)⟩
          · simp only [stepEvent, hs1, Bool.false_eq_true, if_false,
              if_true] at h
            rw [if_neg hin] at h
            cases hcl : contentLoop cfg gi ck f n c reg.contentRules
                ⟨s.rawFindings, s.suppressions, s.skippedFiles,
                  insertNew s.scannedFiles f, s.ignoredFiles, false⟩ with
            | error err =>
              rw [hcl] at h
              exact absurd h (by simp)
            | ok st2 =>
              rw [hcl] at h
              injection h with h2
              obtain ⟨c1, c2, c3, c4, c5, c6⟩ := contentLoop_files
                reg.contentRules cfg gi ck f n c _ _ hcl
              obtain ⟨e1, e2⟩ := entropyOut_files (lineHits cfg em c)
                cfg.globalAllowlist gi ck em f n
              obtain ⟨b1, b2, b3, b4, b5⟩ := breakerCheck_fields cfg
                (entropyPhase cfg gi ck em f n c st2)
              have hraw : u.rawFindings = st2.rawFindings ++
                  (entropyOut cfg.globalAllowlist gi ck em f n
                    (lineHits cfg em c)).1 := by
                rw [← h2, b1, entropyPhase_shape]
              have hsup : u.suppressions = st2.suppressions ++
                  (entropyOut cfg.globalAllowlist gi ck em f n
                    (lineHits cfg em c)).2 := by
                rw [← h2, b2, entropyPhase_shape]
              have hscan : u.scannedFiles = insertNew s.scannedFiles f := by
                rw [← h2, b4, entropyPhase_shape]
                exact c4
              have hignk : u.ignoredFiles = s.ignoredFiles := by
                rw [← h2, b5, entropyPhase_shape]
                exact c5
              refine ⟨⟨?_, ?_, ?_⟩, ?_, ?_,
                fun o fs he => absurd he (by simp)⟩
              · intro r hr
                rw [hraw] at hr
                rcases List.mem_append.mp hr with h1 | h1
                · rcases c1 r h1 with h3 | h3
                  · exact hKr r h3
                  · rw [h3]
                    exact hfP
                · rw [e1 r h1]
                  exact hfP
              · intro x hx
                rw [hsup] at hx
                rcases List.mem_append.mp hx with h1 | h1
                · rcases c2 x h1 with h3 | h3
                  · exact hKs x h3
                  · rw [h3]
                    exact hfP
                · rw [e2 x h1]
                  exact hfP
              · rw [hscan]
                exact not_mem_insertNew _ _ _ hKc
                  (fun hPf => hfP hPf.symm)
              · intro hh
                rw [hignk]
                exact hh
              · intro hh
                exact absurd hh (by simp [hs1])

/-- `KInv` is preserved by the whole main pass on an event stream whose
added lines for `P` are preceded by `P`'s `DiffFile` event. -/
theorem runEvents_K :
    ∀ (es : List DiffItem) (cfg : EConfig) (reg : Registry)
      (gi : GitSafeIgnore) (ck : SuppressionChecker) (em : EntropyModel)
      (P : String) (s t : EngineState),
      wouldMark cfg gi P = true →
      KInv P s →
      (precededBy P es = true ∨ P ∈ s.ignoredFiles ∨ s.stopped = true) →
      runEvents cfg reg gi ck em es s = .ok t →
      KInv P t := by
  intro es
  induction es with
  | nil =>
    intro cfg reg gi ck em P s t hWM hK hpre h
    injection h with h2
    subst h2
    exact hK
  | cons e es ih =>
    intro cfg reg gi ck em P s t hWM hK hpre h
    simp only [runEvents] at h
    cases hse : stepEvent cfg reg gi ck em s e with
    | error err =>
      rw [hse] at h
      exact absurd h (by simp)
    | ok u =>
      rw [hse] at h
      have hnl : (∀ n c, e ≠ DiffItem.line P n c LineType.added) ∨
          P ∈ s.ignoredFiles ∨ s.stopped = true := by
        rcases hpre with h1 | h2 | h3
        · cases e with
          | file p o st => exact Or.inl (fun n c he => by simp at he)
          | skipped p r => exact Or.inl (fun n c he => by simp at he)
          | line f n0 c0 lt =>
            left
            intro n1 c1 he
            injection he with hf hn hc hlt
            subst hf
            subst hlt
            simp [precededBy] at h1
        · exact Or.inr (Or.inl h2)
        · exact Or.inr (Or.inr h3)
      obtain ⟨hK2, himp, hstopimp, hfile⟩ := stepEvent_KInv cfg reg gi ck em
        P e s u hWM hK hnl hse
      have hpre2 : precededBy P es = true ∨ P ∈ u.ignoredFiles ∨
          u.stopped = true := by
        rcases hpre with h1 | h2 | h3
        · cases e with
          | skipped p r =>
            left
            simpa [precededBy] using h1
          | line f n0 c0 lt =>
            left
            simp only [precededBy, Bool.and_eq_true] at h1
            exact h1.2
          | file p o fs =>
            by_cases hpP : p = P
            · subst hpP
              by_cases hstop : s.stopped = true
              · exact Or.inr (Or.inr (hstopimp hstop))
              · have hs1 : s.stopped = false := by
                  revert hstop; cases s.stopped <;> simp
                exact Or.inr (Or.inl (hfile o fs rfl hs1))
            · left
              simp only [precededBy] at h1
              rw [if_neg hpP] at h1
              exact h1
        · exact Or.inr (Or.inl (himp h2))
        · exact Or.inr (Or.inr (hstopimp h3))
      exact ih cfg reg gi ck em P u t hWM hK2 hpre2 h

/-- One step never removes a skipped-files entry. -/
theorem stepEvent_skipped_mono (cfg : EConfig) (reg : Registry)
    (gi : GitSafeIgnore) (ck : SuppressionChecker) (em : EntropyModel)
    (s u : EngineState) (e : DiffItem)
    (h : stepEvent cfg reg gi ck em s e = .ok u) :
    ∀ x ∈ s.skippedFiles, x ∈ u.skippedFiles := by
  intro x hx
  by_cases hs : s.stopped = true
  · simp only [stepEvent, hs, if_true] at h
    injection h with h2
    subst h2
    exact hx
  · have hs1 : s.stopped = false := by
      revert hs; cases s.stopped <;> simp
    cases e with
    | skipped p r =>
      simp only [stepEvent, hs1, Bool.false_eq_true, if_false] at h
      injection h with h2
      subst h2
      exact List.mem_append_left _ hx
    | file p o fs =>
      simp only [stepEvent, hs1, Bool.false_eq_true, if_false] at h
      by_cases hg1 : cfg.ignoreGlobs.any (fun g => g p) = true
      · simp only [hg1, if_true] at h
        injection h with h2
        subst h2
        exact List.mem_append_left _ hx
      · simp only [hg1, Bool.false_eq_true, if_false] at h
        by_cases hg2 : giIsIgnored gi p none = true
        · simp only [hg2, if_true] at h
          injection h with h2
          subst h2
          exact List.mem_append_left _ hx
        · simp only [hg2, Bool.false_eq_true, if_false] at h
          injection h with h2
          subst h2
          exact hx
    | line f n c lt =>
      cases lt with
      | removed =>
        simp only [stepEvent, hs1, Bool.false_eq_true, if_false] at h
        rw [if_neg (by decide)] at h
        injection h with h2
        subst h2
        exact hx
      | context =>
        simp only [stepEvent, hs1, Bool.false_eq_true, if_false] at h
        rw [if_neg (by decide)] at h
        injection h with h2
        subst h2
        exact hx
      | added =>
        simp only [stepEvent, hs1, Bool.false_eq_true, if_false,
          if_true] at h
        by_cases hin : f ∈ s.ignoredFiles
        · rw [if_pos hin] at h
          injection h with h2
          subst h2
          exact hx
        · rw [if_neg hin] at h
          cases hcl : contentLoop cfg gi ck f n c reg.contentRules
              ⟨s.rawFindings, s.suppressions, s.skippedFiles,
                insertNew s.scannedFiles f, s.ignoredFiles, false⟩ with
          | error err =>
            rw [hcl] at h
            exact absurd h (by simp)
          | ok st2 =>
            rw [hcl] at h
            injection h with h2
            obtain ⟨-, -, c3, -, -, -⟩ := contentLoop_files
              reg.contentRules cfg gi ck f n c _ _ hcl
            obtain ⟨-, -, b3, -, -⟩ := breakerCheck_fields cfg
              (entropyPhase cfg gi ck em f n c st2)
            have hsk : u.skippedFiles = s.skippedFiles := by
              rw [← h2, b3, entropyPhase_shape]
              exact c3
            rw [hsk]
            exact hx

/-- The main pass never removes a skipped-files entry. -/
theorem runEvents_skipped_mono :
    ∀ (es : List DiffItem) (cfg : EConfig) (reg : Registry)
      (gi : GitSafeIgnore) (ck : SuppressionChecker) (em : EntropyModel)
      (s t : EngineState),
      runEvents cfg reg gi ck em es s = .ok t →
      ∀ x ∈ s.skippedFiles, x ∈ t.skippedFiles := by
  intro es
  induction es with
  | nil =>
    intro cfg reg gi ck em s t h x hx
    injection h with h2
    subst h2
    exact hx
  | cons e es ih =>
    intro cfg reg gi ck em s t h x hx
    simp only [runEvents] at h
    cases hse : stepEvent cfg reg gi ck em s e with
    | error err =>
      rw [hse] at h
      exact absurd h (by simp)
    | ok u =>
      rw [hse] at h
      exact ih cfg reg gi ck em u t h x
        (stepEvent_skipped_mono cfg reg gi ck em s u e hse x hx)

/-- With no circuit breaker configured, one step never sets the stop
flag. -/
theorem stepEvent_stopped_none (cfg : EConfig) (reg : Registry)
    (gi : GitSafeIgnore) (ck : SuppressionChecker) (em : EntropyModel)
    (s u : EngineState) (e : DiffItem) (hMax : cfg.maxFindings = none)
    (hs1 : s.stopped = false)
    (h : stepEvent cfg reg gi ck em s e = .ok u) :
    u.stopped = false := by
  cases e with
  | skipped p r =>
    simp only [stepEvent, hs1, Bool.false_eq_true, if_false] at h
    injection h with h2
    subst h2
    rfl
  | file p o fs =>
    simp only [stepEvent, hs1, Bool.false_eq_true, if_false] at h
    by_cases hg1 : cfg.ignoreGlobs.any (fun g => g p) = true
    · simp only [hg1, if_true] at h
      injection h with h2
      subst h2
      rfl
    · simp only [hg1, Bool.false_eq_true, if_false] at h
      by_cases hg2 : giIsIgnored gi p none = true
      · simp only [hg2, if_true] at h
        injection h with h2
        subst h2
        rfl
      · simp only [hg2, Bool.false_eq_true, if_false] at h
        injection h with h2
        subst h2
        rfl
  | line f n c lt =>
    cases lt with
    | removed =>
      simp only [stepEvent, hs1, Bool.false_eq_true, if_false] at h
      rw [if_neg (by decide)] at h
      injection h with h2
      subst h2
      exact hs1
    | context =>
      simp only [stepEvent, hs1, Bool.false_eq_true, if_false] at h
      rw [if_neg (by decide)] at h
      injection h with h2
      subst h2
      exact hs1
    | added =>
      simp only [stepEvent, hs1, Bool.false_eq_true, if_false,
        if_true] at h
      by_cases hin : f ∈ s.ignoredFiles
      · rw [if_pos hin] at h
        injection h with h2
        subst h2
        exact hs1
      · rw [if_neg hin] at h
        cases hcl : contentLoop cfg gi ck f n c reg.contentRules
            ⟨s.rawFindings, s.suppressions, s.skippedFiles,
              insertNew s.scannedFiles f, s.ignoredFiles, false⟩ with
        | error err =>
          rw [hcl] at h
          exact absurd h (by simp)
        | ok st2 =>
          rw [hcl] at h
          injection h with h2
          obtain ⟨-, -, -, -, -, c6⟩ := contentLoop_files
            reg.contentRules cfg gi ck f n c _ _ hcl
          have hst2 : st2.stopped = false := by
            rw [c6]
          rw [← h2, breaker_none cfg _ hMax, entropyPhase_shape]
          show st2.stopped = false
          exact hst2

/-- With no circuit breaker, a `DiffFile` event for a would-be-ignored
path always leaves a skipped-files entry in the final state. -/
theorem runEvents_skipEntry :
    ∀ (es : List DiffItem) (cfg : EConfig) (reg : Registry)
      (gi : GitSafeIgnore) (ck : SuppressionChecker) (em : EntropyModel)
      (P : String) (o : Option String) (fs : FileStatus)
      (s t : EngineState),
      cfg.maxFindings = none →
      wouldMark cfg gi P = true →
      s.stopped = false →
      DiffItem.file P o fs ∈ es →
      runEvents cfg reg gi ck em es s = .ok t →
      P ++ " (ignored)" ∈ t.skippedFiles ∨
        P ++ " (gitsafeignore)" ∈ t.skippedFiles := by
  intro es
  induction es with
  | nil =>
    intro cfg reg gi ck em P o fs s t hMax hWM hs1 hmem h
    exact absurd hmem (by simp)
  | cons e es ih =>
    intro cfg reg gi ck em P o fs s t hMax hWM hs1 hmem h
    simp only [runEvents] at h
    cases hse : stepEvent cfg reg gi ck em s e with
    | error err =>
      rw [hse] at h
      exact absurd h (by simp)
    | ok u =>
      rw [hse] at h
      rcases List.mem_cons.mp hmem with hhead | htail
      · subst hhead
        simp only [stepEvent, hs1, Bool.false_eq_true, if_false] at hse
        by_cases hg1 : cfg.ignoreGlobs.any (fun g => g P) = true
        · simp only [hg1, if_true] at hse
          injection hse with h2
          left
          refine runEvents_skipped_mono es cfg reg gi ck em u t h _ ?_
          rw [← h2]
          exact List.mem_append_right _ (by simp)
        · simp only [hg1, Bool.false_eq_true, if_false] at hse
          have hg1f : cfg.ignoreGlobs.any (fun g => g P) = false := by
            revert hg1
            cases cfg.ignoreGlobs.any (fun g => g P) <;> simp
          have hg2 : giIsIgnored gi P none = true := by
            unfold wouldMark at hWM
            rw [hg1f] at hWM
            simpa using hWM
          simp only [hg2, if_true] at hse
          injection hse with h2
          right
          refine runEvents_skipped_mono es cfg reg gi ck em u t h _ ?_
          rw [← h2]
          exact List.mem_append_right _ (by simp)
      · exact ih cfg reg gi ck em P o fs u t hMax hWM
          (stepEvent_stopped_none cfg reg gi ck em s u e hMax hs1 hse)
          htail h

/-- C10, corrected: for an event stream in which every added line of `P`
is preceded by `P`'s `DiffFile` event (as in every well-formed diff), a
path `P` matching a config ignore glob or a global `.gitsafeignore` glob
contributes nothing to the result except a skipped-files entry: no
returned finding or suppression carries file `P`, `P` is not in the
scanned-files set (so not counted by `scanned_files`), and — absent the
`ci.max_findings` breaker — the `"(ignored)"` or `"(gitsafeignore)"`
skipped entry is present.  Without the precedence hypothesis the claim is
false: a stray added line before the marking event is scanned (see the
counterexample). -/
theorem C10_ignored_isolation :
    ∀ (cfg : EConfig) (reg : Registry) (gi : GitSafeIgnore)
      (em : EntropyModel) (d P : String) (t : EngineState),
      wouldMark cfg gi P = true →
      precededBy P (parseDiff d) = true →
      runEvents cfg reg gi (buildChecker (parseDiff d)) em (parseDiff d)
        initES = .ok t →
      scanE cfg reg gi em d = .ok (mkScanResult cfg t) ∧
      (∀ f ∈ (mkScanResult cfg t).findings, f.file ≠ P) ∧
      (∀ u ∈ (mkScanResult cfg t).suppressed, u.file ≠ P) ∧
      P ∉ t.scannedFiles ∧
      (mkScanResult cfg t).scanned_files = t.scannedFiles.length ∧
      (cfg.maxFindings = none →
        ∀ o fs, DiffItem.file P o fs ∈ parseDiff d →
          P ++ " (ignored)" ∈ (mkScanResult cfg t).skipped_files ∨
            P ++ " (gitsafeignore)" ∈ (mkScanResult cfg t).skipped_files) := by
  intro cfg reg gi em d P t hWM hpre hrun
  obtain ⟨hKr, hKs, hKc⟩ := runEvents_K (parseDiff d) cfg reg gi
    (buildChecker (parseDiff d)) em P initES t hWM
    ⟨by simp [initES], by simp [initES], by simp [initES]⟩
    (Or.inl hpre) hrun
  refine ⟨?_, ?_, ?_, hKc, rfl, ?_⟩
  · have hsc : scanE cfg reg gi em d =
        (match runEvents cfg reg gi (buildChecker (parseDiff d)) em
            (parseDiff d) initES with
         | .error e => .error ⟨scrubMessage e.2.rawFindings.length⟩
         | .ok st => .ok (mkScanResult cfg st)) := rfl
    rw [hsc, hrun]
  · intro f hf
    obtain ⟨r, hr, hkey⟩ := deduplicate_sound t.rawFindings cfg.failOn f hf
    have hfile : r.file = f.file := congrArg (fun q => q.2.1) hkey
    intro hP
    exact hKr r hr (hfile.trans hP)
  · intro x hx
    exact hKs x hx
  · intro hMax o fs hmem
    exact runEvents_skipEntry (parseDiff d) cfg reg gi
      (buildChecker (parseDiff d)) em P o fs initES t hMax hWM rfl hmem hrun

/-- C10, counterexample to the claim as stated: scanning the degenerate
diff `exDP` (a stray `+AKIA` line between the binary marker and `P`'s
header) with `P` in the config ignore globs marks `P` ignored (the
`"P (ignored)"` skipped entry is present) yet the result still contains a
finding with file `P` and counts `P` in `scanned_files`. -/
theorem C10_counterexample :
    wouldMark cfgP giE "P" = true ∧
    precededBy "P" (parseDiff exDP) = false ∧
    (scanE cfgP reg2 giE emT exDP).toOption.map
        (fun r => (r.findings.map (fun f => f.file), r.scanned_files,
          r.skipped_files)) =
      some (["P"], 1, ["P (binary)", "P (ignored)"]) := by
  decide

/-- C10 witness: the amended theorem applied to the well-formed diff
`exDPgood` under `cfgP`. -/
theorem C10_witness :
    scanE cfgP reg2 giE emT exDPgood = .ok (mkScanResult cfgP exC10t) ∧
    (∀ f ∈ (mkScanResult cfgP exC10t).findings, f.file ≠ "P") ∧
    (∀ u ∈ (mkScanResult cfgP exC10t).suppressed, u.file ≠ "P") ∧
    "P" ∉ exC10t.scannedFiles ∧
    (mkScanResult cfgP exC10t).scanned_files =
      exC10t.scannedFiles.length ∧
    (cfgP.maxFindings = none →
      ∀ o fs, DiffItem.file "P" o fs ∈ parseDiff exDPgood →
        "P" ++ " (ignored)" ∈ (mkScanResult cfgP exC10t).skipped_files ∨
          "P" ++ " (gitsafeignore)" ∈
            (mkScanResult cfgP exC10t).skipped_files) :=
  C10_ignored_isolation cfgP reg2 giE emT exDPgood "P" exC10t (by decide)
    (by decide) rfl

end GitSafe
